import Mathlib

/-!
Shallow embedding of the `ma_debate` package (multiagent-debate repository).

Conventions of the embedding:
* Python `str` text is modelled as `List Char`; map/dict values keyed by
  agent id are modelled as association lists `List (String × _)` in
  insertion order (Python dicts preserve insertion order and have unique
  keys; uniqueness appears as `Nodup` hypotheses where a proof needs it).
* Python `float` is modelled as `ℚ`; every numeric literal occurring in the
  sources (1.0, 1.5, 2.0, weights) is exactly representable.
* Fallible Python code (uncaught exceptions) is modelled with
  `Except String`, the message naming the Python exception.
* `json.loads` applied to the brace-delimited slice of an LLM response is
  modelled by an `Option (List (String × Json))` input: `none` is the
  exception path (no brace-delimited parseable object), `some fields` the
  successfully parsed JSON object (a slice that starts with `{` and ends
  with `}` can only parse as an object).
* The external LLM completion capability is an oracle function parameter.
-/

namespace MaDebate

/-- JSON values as returned by `json.loads` (object fields in order). -/
inductive Json where
  | null : Json
  | bool (b : Bool) : Json
  | num (q : ℚ) : Json
  | str (s : String) : Json
  | arr (elems : List Json) : Json
  | obj (fields : List (String × Json)) : Json


/-- One entry of `Judgement.per_criterion`: the dict
`{"score": float, "weight": int, "note": ...}` built in `GPTJudge._score_one`. -/
structure CritEntry where
  score : ℚ
  weight : ℤ
  note : Json


/-- `judge.Judgement` (dataclass): total score, per-criterion breakdown, verdict.
The verdict field is typed `str` in Python but actually holds whatever JSON
value `data.get("verdict", "")` returns, so it is modelled as `Json`. -/
structure Judgement where
  total : ℚ
  per_criterion : List (String × CritEntry)
  verdict : Json


/-- `rubrics.Rubric`: name plus criterion → weight mapping. -/
structure Rubric where
  name : String
  criteria : List (String × ℤ)

/-- `rubrics.DEFAULT_RUBRIC`. -/
def DEFAULT_RUBRIC : Rubric :=
  ⟨"GeneralReasoningV1",
   [("soundness", 3), ("evidence", 2), ("constraints", 2), ("safety", 1), ("clarity", 1)]⟩

/-- Python dict lookup on an association list (first match; a Python dict
never holds duplicate keys). -/
def alookup {β : Type} (key : String) : List (String × β) → Option β
  | [] => none
  | p :: rest => if p.1 = key then some p.2 else alookup key rest

/-- Python `info.get(key, default)` for a JSON value: attribute access `.get`
raises `AttributeError` unless `info` is a dict. -/
def pyGet (info : Json) (key : String) : Except String (Option Json) :=
  match info with
  | .obj fields => .ok (alookup key fields)
  | _ => .error "AttributeError"

/-- Value of an unsigned decimal digit string, `none` if empty or non-digit. -/
def decDigits : List Char → Option ℕ
  | [] => none
  | [c] => if c.isDigit then some (c.toNat - 48) else none
  | c :: c2 :: rest =>
    match decDigits (c2 :: rest), (if c.isDigit then some (c.toNat - 48) else none) with
    | some v, some d => some (d * 10 ^ (c2 :: rest).length + v)
    | _, _ => none

/-- Model of Python `float(s)` on a string: optional sign, then either
`digits`, `digits.digits`, `digits.` or `.digits`; anything else raises
`ValueError`. (Whitespace trimming, exponents, `inf`/`nan` and underscore
separators of the real `float` are not modelled; no claim exercises them.) -/
def pyFloatOfString (s : String) : Except String ℚ :=
  let core : List Char → Except String ℚ := fun cs =>
    match cs.splitOn '.' with
    | [intPart] =>
      match decDigits intPart with
      | some n => .ok n
      | none => .error "ValueError"
    | [intPart, fracPart] =>
      match intPart, fracPart with
      | [], [] => .error "ValueError"
      | _, _ =>
        let iv : Option ℕ := if intPart = [] then some 0 else decDigits intPart
        let fv : Option ℕ := if fracPart = [] then some 0 else decDigits fracPart
        match iv, fv with
        | some i, some f => .ok ((i : ℚ) + (f : ℚ) / (10 : ℚ) ^ fracPart.length)
        | _, _ => .error "ValueError"
    | _ => .error "ValueError"
  match s.data with
  | '-' :: rest => (core rest).map (fun q => -q)
  | '+' :: rest => core rest
  | cs => core cs

/-- Model of Python `float(x)` on a JSON value: numbers pass through, bools
coerce to 0/1, strings are parsed (`ValueError` on failure), and `None`,
lists and dicts raise `TypeError`. -/
def pyFloat : Json → Except String ℚ
  | .num q => .ok q
  | .bool b => .ok (if b then 1 else 0)
  | .str s => pyFloatOfString s
  | _ => .error "TypeError"

/-- `float(info.get("score", 0.0))` in `GPTJudge._score_one`: the default
`0.0` is already a float, a present value goes through `float(...)`. -/
def getScoreVal (info : Json) : Except String ℚ := do
  let v ← pyGet info "score"
  match v with
  | none => .ok 0
  | some j => pyFloat j

/-- `info.get("note", "")`: only evaluated after `getScoreVal` succeeded, at
which point `info` is a dict; the non-dict branch is unreachable. -/
def noteVal (info : Json) : Json :=
  match info with
  | .obj fields => (alookup "note" fields).getD (.str "")
  | _ => .str ""

/-- The `for crit, weight in self.rubric.criteria.items()` loop of
`GPTJudge._score_one`, accumulating `total` and `per`. -/
def scoreCriteria (data : List (String × Json)) :
    List (String × ℤ) → ℚ → List (String × CritEntry) →
    Except String (ℚ × List (String × CritEntry))
  | [], total, per => .ok (total, per)
  | (crit, weight) :: rest, total, per => do
    let info := (alookup crit data).getD (Json.obj [])
    let score ← getScoreVal info
    let note := noteVal info
    scoreCriteria data rest (total + score * (weight : ℚ)) (per ++ [(crit, ⟨score, weight, note⟩)])

/-- `GPTJudge._score_one` after the LLM call, as a function of the parse
outcome of the response (`none` = the `try` block raised). -/
def score_one (rubric : Rubric) (parsed : Option (List (String × Json))) :
    Except String Judgement :=
  match parsed with
  | none => .ok ⟨0, [], Json.str "Parsing failed"⟩
  | some data => do
    let tp ← scoreCriteria data rubric.criteria 0 []
    let verdict := (alookup "verdict" data).getD (Json.str "")
    .ok ⟨tp.1, tp.2, verdict⟩

/-- Python `max(iterable, key=f)`: scans left to right, replacing the current
best only on a strictly greater key, so ties keep the earliest element;
`none` models the `ValueError` on an empty iterable. -/
def pyMax (f : α → ℚ) : List α → Option α
  | [] => none
  | x :: xs => some (xs.foldl (fun acc y => if f acc < f y then y else acc) x)

/-- Sequential effectful map in `Except` (Python comprehensions/loops whose
body may raise: the first raise propagates). -/
def mapExcept (f : α → Except String β) : List α → Except String (List β)
  | [] => .ok []
  | x :: xs =>
    match f x with
    | .error e => .error e
    | .ok y =>
      match mapExcept f xs with
      | .error e => .error e
      | .ok ys => .ok (y :: ys)

/-- Parse outcome of the LLM judge response for a given (agent id, answer)
pair: the composite `llm.chat` + brace slice + `json.loads` of
`GPTJudge._score_one`, abstracted as an oracle. -/
def JudgeOracle : Type := String → List Char → Option (List (String × Json))

/-- `GPTJudge.judge`: score every submission, then pick the argmax total.
`max` on the empty dict raises `ValueError`. -/
def gptJudge (rubric : Rubric) (oracle : JudgeOracle)
    (answers : List (String × List Char)) :
    Except String (String × List (String × Judgement)) :=
  match mapExcept (fun p =>
      match score_one rubric (oracle p.1 p.2) with
      | .error e => .error e
      | .ok j => .ok (p.1, j)) answers with
  | .error e => .error e
  | .ok details =>
    match pyMax (fun q => q.2.total) details with
    | none => .error "ValueError: max() arg is an empty sequence"
    | some m => .ok (m.1, details)

/-- `agg[aid] += t` on the aggregate dict of `PanelJudge.judge` (modelled on
the association list; under the keys-match invariant the key is present). -/
def aggAdd (agg : List (String × ℚ)) (aid : String) (t : ℚ) : List (String × ℚ) :=
  agg.map fun p => if p.1 = aid then (p.1, p.2 + t) else p

/-- The aggregation loops of `PanelJudge.judge`:
`agg = {aid: 0.0 for aid in answers}` then
`for _, d in panels: for aid, j in d.items(): agg[aid] += j.total`. -/
def panelAgg (answers : List (String × List Char))
    (panels : List (List (String × Judgement))) : List (String × ℚ) :=
  panels.foldl
    (fun agg d => d.foldl (fun agg2 p => aggAdd agg2 p.1 p.2.total) agg)
    (answers.map fun p => (p.1, (0 : ℚ)))

/-- `PanelJudge.judge` with `n = oracles.length` members (source default
`n = 3`): each member is an independent `GPTJudge` over the same answers;
totals are summed, the winner is the argmax of the sums, and the returned
detail is `panels[0][1]` — an `IndexError` when the panel is empty. -/
def panelJudge (rubric : Rubric) (oracles : List JudgeOracle)
    (answers : List (String × List Char)) :
    Except String (String × List (String × Judgement)) :=
  match mapExcept (fun o => gptJudge rubric o answers) oracles with
  | .error e => .error e
  | .ok panels =>
    let agg := panelAgg answers (panels.map fun wd => wd.2)
    match pyMax (fun q => q.2) agg with
    | none => .error "ValueError: max() arg is an empty sequence"
    | some m =>
      match panels with
      | [] => .error "IndexError: list index out of range"
      | p0 :: _ => .ok (m.1, p0.2)

/-- `pat` begins `l` (Python `str.startswith`, used to model slicing). -/
def pfx : List Char → List Char → Bool
  | [], _ => true
  | _ :: _, [] => false
  | a :: as, b :: bs => a = b && pfx as bs

/-- Python `pat in text` substring test. -/
def hasSub (pat : List Char) : List Char → Bool
  | [] => pfx pat []
  | c :: rest => pfx pat (c :: rest) || hasSub pat rest

/-- Python `text.count(pat)` for non-empty `pat`: non-overlapping occurrences
scanned left to right (after a match, scanning resumes past it). -/
def pyCount (pat : List Char) : List Char → ℕ
  | [] => 0
  | c :: rest =>
    if pfx pat (c :: rest) then 1 + pyCount pat (rest.drop (pat.length - 1))
    else pyCount pat rest
termination_by l => l.length
decreasing_by
  · simp [List.length_drop]
    omega
  · simp

/-- The keyword list of `RulesJudge._score`. -/
def KEYWORDS : List (List Char) :=
  ["risk".data, "mitigat".data, "trade-off".data, "constraint".data,
   "latency".data, "throughput".data, "security".data, "safety".data]

/-- `RulesJudge._score`: bullet count + heading bonus + 1.5 per matched
keyword (substring of the lowercased text) − long-text penalty.
Python `str.lower` is modelled by `Char.toLower` per character (they agree on
ASCII; every text a claim touches is ASCII). -/
def rules_score (text : List Char) : ℚ :=
  let score : ℚ := 0.0
  let score := score + (pyCount "\n- ".data text : ℚ) * 1.0
  let score := if hasSub "##".data text || hasSub "###".data text then score + 1.0 else score
  let score := KEYWORDS.foldl
    (fun s kw => if hasSub kw (text.map Char.toLower) then s + 1.5 else s) score
  let score := if 3000 < text.length then score - 2.0 else score
  score

/-- `RulesJudge.judge`: heuristic score per answer, argmax total wins. -/
def rulesJudge (answers : List (String × List Char)) :
    Except String (String × List (String × Judgement)) :=
  let details := answers.map fun p =>
    (p.1, Judgement.mk (rules_score p.2) [] (Json.str "Heuristic score"))
  match pyMax (fun q => q.2.total) details with
  | none => .error "ValueError: max() arg is an empty sequence"
  | some m => .ok (m.1, details)

/-- The text-producing behaviour of one agent: `Agent.propose`, `.critique`
and `.defend` each build a prompt and make exactly one `llm.chat` call, so
each operation is one completion-capability call returning text. Generation
parameters (temperature, max_tokens, seed) are forwarded unchanged to the
capability and do not influence the orchestration, so they are absorbed into
the oracle. -/
structure AgentOracle where
  propose : List Char → Option (List Char) → List Char
  critique : List Char → List Char
  defend : List Char → List (List Char) → List Char

/-- One completion-capability call issued by the orchestrator, tagged with
its phase (`propose agent`, `critique critic target`, `defend agent`). -/
inductive Ev where
  | propose (aid : String) : Ev
  | critique (critic target : String) : Ev
  | defend (aid : String) : Ev
deriving DecidableEq

/-- `Debate._propose_round`: every agent proposes from the same
question/constraints; results are collected into an id-keyed map
(`dict(results)` in task order = agents order). -/
def proposeRound (agents : List (String × AgentOracle))
    (question : List Char) (constraints : Option (List Char)) :
    List (String × List Char) × List Ev :=
  (agents.map fun p => (p.1, p.2.propose question constraints),
   agents.map fun p => .propose p.1)

/-- `Debate._critique_round`: `critiques = {aid: [] for aid in self.agents}`,
then for every `target` in `answers` and every agent `aid ≠ target`, one
critique call whose text is appended to `critiques[target]` as
`f"{aid}: {crit}"`. Returns the critiques map and the issued calls. -/
def critiqueRound (agents : List (String × AgentOracle))
    (answers : List (String × List Char)) :
    List (String × List (List Char)) × List Ev :=
  let init := agents.map fun p => (p.1, ([] : List (List Char)))
  answers.foldl
    (fun acc t =>
      agents.foldl
        (fun acc2 p =>
          if p.1 = t.1 then acc2
          else
            ((acc2.1.map fun q =>
                if q.1 = t.1 then (q.1, q.2 ++ [p.1.data ++ ": ".data ++ p.2.critique t.2])
                else q),
             acc2.2 ++ [.critique p.1 t.1]))
        acc)
    (init, [])

/-- `Debate._defend_round`: every agent revises its own answer using the
critiques addressed to it (`answers[aid]`, `critiques[aid]`; under the
protocol invariant both keys are always present, so the lookup defaults are
never used). -/
def defendRound (agents : List (String × AgentOracle))
    (answers : List (String × List Char))
    (critiques : List (String × List (List Char))) :
    List (String × List Char) × List Ev :=
  (agents.map fun p =>
     (p.1, p.2.defend ((alookup p.1 answers).getD [])
                      ((alookup p.1 critiques).getD [])),
   agents.map fun p => .defend p.1)

/-- The `for _ in range(rounds)` loop of `Debate.run`: each iteration runs a
critique round then a defend round over the current answers. -/
def debateLoop (agents : List (String × AgentOracle)) :
    ℕ → List (String × List Char) → List Ev →
    List (String × List Char) × List Ev
  | 0, answers, trace => (answers, trace)
  | r + 1, answers, trace =>
    let c := critiqueRound agents answers
    let d := defendRound agents answers c.1
    debateLoop agents r d.1 (trace ++ c.2 ++ d.2)

/-- `Debate.run` up to the point where the final answers map is passed to
the judge and synthesis: the initial propose round followed by `rounds`
critique/defend iterations. No validation of the question text occurs.
Returns the final answers map and the full capability-call trace. -/
def debateRun (agents : List (String × AgentOracle))
    (question : List Char) (constraints : Option (List Char)) (rounds : ℕ) :
    List (String × List Char) × List Ev :=
  let p := proposeRound agents question constraints
  debateLoop agents rounds p.1 p.2

/-- Python `"\n".join(parts)`. -/
def pyJoin (sep : List Char) : List (List Char) → List Char
  | [] => []
  | [x] => x
  | x :: y :: rest => x ++ sep ++ pyJoin sep (y :: rest)

/-- `Debate._synthesize`: `"\n".join(f"### {aid}\n{text}\n" for ...)` over
the final answers in insertion order. -/
def synthesize (answers : List (String × List Char)) : List Char :=
  pyJoin "\n".data
    (answers.map fun p => "### ".data ++ p.1.data ++ "\n".data ++ p.2 ++ "\n".data)

/-! Specification-side definitions, used to state the claims independently
of the implementation above. -/

/-- Split a text into its lines at `'\n'` (a trailing newline yields a final
empty line, matching the usual "lines between newline separators" reading). -/
def splitLines : List Char → List (List Char)
  | [] => [[]]
  | c :: rest =>
    if c = '\n' then [] :: splitLines rest
    else
      match splitLines rest with
      | l :: ls => (c :: l) :: ls
      | [] => [[c]]

/-- The markdown headings of a text: for every line starting with `"### "`,
the remainder of that line. -/
def headings (t : List Char) : List (List Char) :=
  (splitLines t).filterMap fun l => if pfx "### ".data l then some (l.drop 4) else none

/-- Spec-side heuristic score, following the amended spec sentence: one
point per line, other than the first, that begins with `"- "`; +1 if a
level-2/3 heading marker (`##`) occurs; +1.5 per distinct matched keyword
(case-insensitive substring); −2 if the text exceeds 3000 characters. -/
def specScore (t : List Char) : ℚ :=
  (((splitLines t).tail.countP fun l => pfx "- ".data l) : ℚ)
    + (if hasSub "##".data t then 1 else 0)
    + (3 / 2) * ((KEYWORDS.countP fun kw => hasSub kw (t.map Char.toLower)) : ℚ)
    + (if 3000 < t.length then -2 else 0)

/-- `w` is the first entry of `l` attaining the maximal key: `l` splits
around an occurrence of `w` whose key dominates all of `l` and strictly
dominates everything before it. -/
def FirstMax (f : α → ℚ) (l : List α) (w : α) : Prop :=
  ∃ l₁ l₂, l = l₁ ++ w :: l₂ ∧ (∀ a ∈ l, f a ≤ f w) ∧ ∀ a ∈ l₁, f a < f w

/-- Spec-side per-criterion score of a parsed judge object: the `score`
field of the criterion's entry (0 when the criterion is absent, and also
when a present entry carries no `score` field), converted as Python
`float(...)` would. Only meaningful when the conversion succeeds. -/
def critScoreD (data : List (String × Json)) (crit : String) : ℚ :=
  match (alookup crit data).getD (Json.obj []) with
  | .obj fields =>
    match alookup "score" fields with
    | none => 0
    | some j => ((pyFloat j).toOption.getD 0)
  | _ => 0

/-! Further definitions used by the statements below. -/

/-- The total a member's judgement map assigns to an agent (0 when absent;
with matching keys it is always present). -/
def memberTotal (d : List (String × Judgement)) (aid : String) : ℚ :=
  ((alookup aid d).map Judgement.total).getD 0

/-- Contribution of one member's loop to one aggregate entry. -/
def sumEntries (d : List (String × Judgement)) (x : String) : ℚ :=
  (d.map fun p => if p.1 = x then p.2.total else 0).sum

/-- The zero judgement produced on parse failure (used in witnesses). -/
def zeroJudgement : Judgement := ⟨0, [], Json.str "Parsing failed"⟩

/-- The detail map of a member whose responses never parse, over the
two-agent answers used in witnesses. -/
def zeroDetails : List (String × Judgement) := [("A", zeroJudgement), ("B", zeroJudgement)]

/-- A judge oracle whose responses never contain a parseable object. -/
def noneOracle : JudgeOracle := fun _ _ => none

/-- Discriminators for the capability-call trace. -/
def isProposeEv : Ev → Bool
  | .propose _ => true
  | _ => false

/-- Critique-call discriminator. -/
def isCritiqueEv : Ev → Bool
  | .critique _ _ => true
  | _ => false

/-- Defend-call discriminator. -/
def isDefendEv : Ev → Bool
  | .defend _ => true
  | _ => false

/-- The per-target critique calls: one per agent other than the target. -/
def critiquePiece (agents : List (String × AgentOracle)) (tid : String) : List Ev :=
  (agents.filter fun p => ¬(p.1 = tid)).map fun p => Ev.critique p.1 tid

/-- No critique list contains an entry authored by its own target. -/
def NoSelfCritique (m : List (String × List (List Char))) : Prop :=
  ∀ pr ∈ m, ∀ e ∈ pr.2, ∃ aid c, aid ≠ pr.1 ∧ e = aid.data ++ ": ".data ++ c

/-- A concrete agent behaviour for witnesses: proposes the empty text,
always critiques with `x`, and defends by keeping its answer. -/
def constAgent : AgentOracle := ⟨fun _ _ => [], fun _ => "x".data, fun a _ => a⟩

/-! Helper lemmas. -/

/-- The fold inside `pyMax`: its result is either the accumulator (which
then dominates the list) or sits inside the list, strictly above the
accumulator and everything before it, and at least everything after it. -/
theorem foldl_pyMax_spec (f : α → ℚ) (xs : List α) (acc : α) :
    (xs.foldl (fun a y => if f a < f y then y else a) acc = acc ∧
      ∀ a ∈ xs, f a ≤ f acc) ∨
    (∃ l₁ l₂, xs = l₁ ++ (xs.foldl (fun a y => if f a < f y then y else a) acc) :: l₂ ∧
      f acc < f (xs.foldl (fun a y => if f a < f y then y else a) acc) ∧
      (∀ a ∈ l₁, f a < f (xs.foldl (fun a y => if f a < f y then y else a) acc)) ∧
      ∀ a ∈ l₂, f a ≤ f (xs.foldl (fun a y => if f a < f y then y else a) acc)) := by
  induction xs generalizing acc with
  | nil => exact Or.inl ⟨rfl, by simp⟩
  | cons y ys ih =>
    by_cases hy : f acc < f y
    · have hstep : (y :: ys).foldl (fun a y => if f a < f y then y else a) acc
        = ys.foldl (fun a y => if f a < f y then y else a) y := by
        simp [hy]
      rcases ih y with ⟨heq, hle⟩ | ⟨l₁, l₂, hsplit, hacc, hbefore, hafter⟩
      · refine Or.inr ⟨[], ys, ?_, ?_, ?_, ?_⟩
        · simp [hstep, heq]
        · rw [hstep, heq]; exact hy
        · simp
        · rw [hstep, heq]; exact hle
      · refine Or.inr ⟨y :: l₁, l₂, ?_, ?_, ?_, ?_⟩
        · rw [hstep, List.cons_append, ← hsplit]
        · rw [hstep]; exact lt_trans hy hacc
        · rw [hstep]
          intro a ha
          rcases List.mem_cons.1 ha with rfl | ha
          · exact hacc
          · exact hbefore a ha
        · rw [hstep]; exact hafter
    · have hstep : (y :: ys).foldl (fun a y => if f a < f y then y else a) acc
        = ys.foldl (fun a y => if f a < f y then y else a) acc := by
        simp [hy]
      rcases ih acc with ⟨heq, hle⟩ | ⟨l₁, l₂, hsplit, hacc, hbefore, hafter⟩
      · refine Or.inl ⟨by rw [hstep, heq], ?_⟩
        intro a ha
        rcases List.mem_cons.1 ha with rfl | ha
        · exact le_of_not_lt hy
        · exact hle a ha
      · refine Or.inr ⟨y :: l₁, l₂, ?_, ?_, ?_, ?_⟩
        · rw [hstep, List.cons_append, ← hsplit]
        · rw [hstep]; exact hacc
        · rw [hstep]
          intro a ha
          rcases List.mem_cons.1 ha with rfl | ha
          · exact lt_of_le_of_lt (le_of_not_lt hy) hacc
          · exact hbefore a ha
        · rw [hstep]; exact hafter

/-- `pyMax` returns the first entry attaining the maximal key. -/
theorem pyMax_firstMax (f : α → ℚ) (l : List α) (m : α)
    (h : pyMax f l = some m) : FirstMax f l m := by
  match l with
  | [] => simp [pyMax] at h
  | x :: xs =>
    simp only [pyMax, Option.some.injEq] at h
    rcases foldl_pyMax_spec f xs x with ⟨heq, hle⟩ | ⟨l₁, l₂, hsplit, hacc, hbefore, hafter⟩
    · refine ⟨[], xs, ?_, ?_, by simp⟩
      · simp [← h, heq]
      · intro a ha
        rw [← h, heq]
        rcases List.mem_cons.1 ha with rfl | ha
        · exact le_refl _
        · exact hle a ha
    · refine ⟨x :: l₁, l₂, ?_, ?_, ?_⟩
      · rw [h] at hsplit
        rw [hsplit]; rfl
      · intro a ha
        rw [← h]
        rcases List.mem_cons.1 ha with rfl | ha
        · exact le_of_lt hacc
        · rw [hsplit] at ha
          rcases List.mem_append.1 ha with ha | ha
          · exact le_of_lt (hbefore a ha)
          · rcases List.mem_cons.1 ha with rfl | ha
            · exact le_refl _
            · exact hafter a ha
      · intro a ha
        rw [← h]
        rcases List.mem_cons.1 ha with rfl | ha
        · exact hacc
        · exact hbefore a ha

/-- `pyMax` succeeds exactly on non-empty lists. -/
theorem pyMax_isSome (f : α → ℚ) (l : List α) (h : l ≠ []) :
    ∃ m, pyMax f l = some m := by
  match l with
  | [] => exact absurd rfl h
  | x :: xs => exact ⟨_, rfl⟩

/-- `mapExcept` succeeds exactly when `f` succeeds pointwise, with the
results collected in order. -/
theorem mapExcept_ok_iff (f : α → Except String β) (l : List α) (ys : List β) :
    mapExcept f l = .ok ys ↔ List.Forall₂ (fun x y => f x = .ok y) l ys := by
  induction l generalizing ys with
  | nil =>
    constructor
    · intro h
      cases ys with
      | nil => exact List.Forall₂.nil
      | cons y ys => simp [mapExcept] at h
    · intro h
      cases h
      rfl
  | cons x xs ih =>
    constructor
    · intro h
      simp only [mapExcept] at h
      rcases hfx : f x with e | y
      · rw [hfx] at h; exact absurd h (by simp)
      · rw [hfx] at h
        rcases hrec : mapExcept f xs with e | ys'
        · rw [hrec] at h; exact absurd h (by simp)
        · rw [hrec] at h
          simp only [Except.ok.injEq] at h
          subst h
          exact List.Forall₂.cons hfx ((ih ys').1 hrec)
    · intro h
      cases h with
      | cons hfx hrest =>
        simp only [mapExcept, hfx, (ih _).2 hrest]

/-- Successful `mapExcept` over a key-preserving function preserves the key
column. -/
theorem mapExcept_fst {α γ : Type} (f : String × α → Except String (String × γ))
    (hf : ∀ p y, f p = .ok y → y.1 = p.1)
    (l : List (String × α)) (ys : List (String × γ))
    (h : mapExcept f l = .ok ys) :
    ys.map Prod.fst = l.map Prod.fst := by
  induction l generalizing ys with
  | nil =>
    cases ys with
    | nil => rfl
    | cons y ys => simp [mapExcept] at h
  | cons x xs ih =>
    simp only [mapExcept] at h
    rcases hg : f x with e | y
    · rw [hg] at h; exact absurd h (by simp)
    · rw [hg] at h
      rcases hrec : mapExcept f xs with e | ys'
      · rw [hrec] at h; exact absurd h (by simp)
      · rw [hrec] at h
        simp only [Except.ok.injEq] at h
        subst h
        simp [hf x y hg, ih ys' hrec]

/-- Characterization of a successful `gptJudge` run: the detail map is keyed
exactly by the answers map (in order) and the winner is the first entry of
maximal total. -/
theorem gptJudge_ok_spec (rubric : Rubric) (oracle : JudgeOracle)
    (answers : List (String × List Char)) (w : String)
    (det : List (String × Judgement))
    (h : gptJudge rubric oracle answers = .ok (w, det)) :
    det.map Prod.fst = answers.map Prod.fst ∧
    answers ≠ [] ∧
    ∃ j, FirstMax (fun q => q.2.total) det (w, j) := by
  simp only [gptJudge] at h
  rcases hme : mapExcept (fun p =>
      match score_one rubric (oracle p.1 p.2) with
      | .error e => .error e
      | .ok j => .ok (p.1, j)) answers with e | details
  · rw [hme] at h; exact absurd h (by simp)
  · rw [hme] at h
    dsimp only at h
    rcases hmax : pyMax (fun q => q.2.total) details with _ | m
    · rw [hmax] at h; exact absurd h (by simp)
    · rw [hmax] at h
      simp only [Except.ok.injEq, Prod.mk.injEq] at h
      obtain ⟨hw, hdet⟩ := h
      subst hdet
      have hfst : details.map Prod.fst = answers.map Prod.fst := by
        refine mapExcept_fst _ ?_ answers details hme
        intro p y hy
        rcases hs : score_one rubric (oracle p.1 p.2) with e | j
        · rw [hs] at hy; simp at hy
        · rw [hs] at hy
          simp only [Except.ok.injEq] at hy
          rw [← hy]
      refine ⟨hfst, ?_, ?_⟩
      · intro hnil
        subst hnil
        simp only [mapExcept, Except.ok.injEq] at hme
        subst hme
        simp [pyMax] at hmax
      · have hfm := pyMax_firstMax (fun q => q.2.total) details m hmax
        exact ⟨m.2, by rw [← hw, Prod.mk.eta]; exact hfm⟩

/-- Characterization of `rulesJudge` on a non-empty answers map: it always
succeeds, its details pair every agent with the heuristic score of its
answer in insertion order, and the winner is the first entry of maximal
score. -/
theorem rulesJudge_spec (answers : List (String × List Char)) (h : answers ≠ []) :
    ∃ w, rulesJudge answers =
      .ok (w, answers.map fun p =>
        (p.1, Judgement.mk (rules_score p.2) [] (Json.str "Heuristic score"))) ∧
      ∃ j, FirstMax (fun q => q.2.total)
        (answers.map fun p =>
          (p.1, Judgement.mk (rules_score p.2) [] (Json.str "Heuristic score"))) (w, j) := by
  have hne : (answers.map fun p =>
      (p.1, Judgement.mk (rules_score p.2) [] (Json.str "Heuristic score"))) ≠ [] := by
    simpa using h
  obtain ⟨m, hm⟩ := pyMax_isSome (fun q => q.2.total) _ hne
  refine ⟨m.1, ?_, ⟨m.2, ?_⟩⟩
  · simp only [rulesJudge, hm]
  · have := pyMax_firstMax (fun q => q.2.total) _ m hm
    rwa [Prod.mk.eta]

/-! Claims C3 and C7 about `GPTJudge._score_one`. -/

/-- C3 as stated is false: an error can propagate out of the single-model
judge. Concretely, a response parsing to the object
`{"soundness": {"score": "abc"}}` makes `float(info.get("score", 0.0))`
raise `ValueError`, which the code does not catch. -/
theorem claim_C3_counterexample :
    score_one DEFAULT_RUBRIC
      (some [("soundness", Json.obj [("score", Json.str "abc")])]) =
      .error "ValueError" := by
  rfl

/-- C3 (amended): a malformed or absent brace-delimited object yields the
zero-score judgement with verdict "Parsing failed" for every rubric; but the
judge does not recover from every response: a parseable object whose
criterion entry is not itself an object (here `{"soundness": "abc"}`) raises
an uncaught `AttributeError` that propagates to the caller. -/
theorem claim_C3 :
    (∀ rubric : Rubric, score_one rubric none = .ok ⟨0, [], Json.str "Parsing failed"⟩) ∧
    score_one DEFAULT_RUBRIC (some [("soundness", Json.str "abc")]) =
      .error "AttributeError" := by
  exact ⟨fun _ => rfl, rfl⟩

/-- On the success path, the score used for a criterion is `critScoreD`. -/
theorem getScoreVal_ok_eq (info : Json) (s : ℚ) (h : getScoreVal info = .ok s)
    (fields : List (String × Json)) (hinfo : info = .obj fields) :
    s = (match alookup "score" fields with
         | none => 0
         | some j => (pyFloat j).toOption.getD 0) := by
  subst hinfo
  simp only [getScoreVal, pyGet, Except.bind, bind] at h
  rcases hl : alookup "score" fields with _ | j
  · rw [hl] at h
    simp only [Except.ok.injEq] at h
    simp [← h]
  · rw [hl] at h
    dsimp only at h
    rcases hp : pyFloat j with e | q
    · rw [hp] at h; exact absurd h (by simp)
    · rw [hp] at h
      simp only [Except.ok.injEq] at h
      simp [← h, hp, Except.toOption]

/-- `getScoreVal` only succeeds on JSON objects. -/
theorem getScoreVal_ok_obj (info : Json) (s : ℚ) (h : getScoreVal info = .ok s) :
    ∃ fields, info = .obj fields := by
  cases info with
  | obj fields => exact ⟨fields, rfl⟩
  | null => simp [getScoreVal, pyGet, Except.bind, bind] at h
  | bool b => simp [getScoreVal, pyGet, Except.bind, bind] at h
  | num q => simp [getScoreVal, pyGet, Except.bind, bind] at h
  | str s => simp [getScoreVal, pyGet, Except.bind, bind] at h
  | arr a => simp [getScoreVal, pyGet, Except.bind, bind] at h

/-- The criterion loop accumulates exactly the weighted `critScoreD` sum on
top of the incoming total. -/
theorem scoreCriteria_total (data : List (String × Json)) :
    ∀ (crits : List (String × ℤ)) (t0 : ℚ) (per0 : List (String × CritEntry))
      (t : ℚ) (per : List (String × CritEntry)),
      scoreCriteria data crits t0 per0 = .ok (t, per) →
      t = t0 + (crits.map fun cw => critScoreD data cw.1 * (cw.2 : ℚ)).sum := by
  intro crits
  induction crits with
  | nil =>
    intro t0 per0 t per h
    simp only [scoreCriteria, Except.ok.injEq, Prod.mk.injEq] at h
    simp [← h.1]
  | cons cw rest ih =>
    intro t0 per0 t per h
    obtain ⟨crit, weight⟩ := cw
    simp only [scoreCriteria, Except.bind, bind] at h
    rcases hs : getScoreVal ((alookup crit data).getD (Json.obj [])) with e | s
    · rw [hs] at h; exact absurd h (by simp)
    · rw [hs] at h
      have ht := ih _ _ _ _ h
      obtain ⟨fields, hf⟩ := getScoreVal_ok_obj _ _ hs
      have hcs : critScoreD data crit = s := by
        rw [critScoreD, hf, getScoreVal_ok_eq _ _ hs fields hf]
      rw [ht]
      simp only [List.map_cons, List.sum_cons, hcs]
      ring

/-- Lookups of keys different from an appended key are unchanged. -/
theorem lookup_append_ne {β : Type} (data : List (String × β)) (k c : String)
    (v : β) (hne : c ≠ k) :
    alookup c (data ++ [(k, v)]) = alookup c data := by
  induction data with
  | nil => simp [alookup, Ne.symm hne]
  | cons x xs ih =>
    by_cases hx : x.1 = c
    · simp [alookup, hx]
    · simp [alookup, hx, ih]

/-- The criterion loop only inspects the criteria keys of `data`. -/
theorem scoreCriteria_congr (data data' : List (String × Json)) :
    ∀ (crits : List (String × ℤ)),
      (∀ cw ∈ crits, alookup cw.1 data' = alookup cw.1 data) →
      ∀ (t0 : ℚ) (per0 : List (String × CritEntry)),
        scoreCriteria data' crits t0 per0 = scoreCriteria data crits t0 per0 := by
  intro crits
  induction crits with
  | nil => intro _ t0 per0; rfl
  | cons cw rest ih =>
    intro hlk t0 per0
    obtain ⟨crit, weight⟩ := cw
    have h0 : alookup crit data' = alookup crit data :=
      hlk (crit, weight) (List.mem_cons_self _ _)
    simp only [scoreCriteria, h0]
    rcases hs : getScoreVal ((alookup crit data).getD (Json.obj [])) with e | s
    · simp [Except.bind, bind, hs]
    · simp only [Except.bind, bind, hs]
      exact ih (fun c hc => hlk c (List.mem_cons_of_mem _ hc)) _ _

/-- C7: on a successfully parsed response (and a successfully returned
judgement), the total is the weighted sum of the per-criterion scores over
exactly the rubric's declared criteria; a criterion absent from the parsed
object contributes 0; fields outside the declared criteria (and other than
"verdict") do not affect the judgement at all. -/
theorem claim_C7 (rubric : Rubric) (data : List (String × Json)) (j : Judgement)
    (h : score_one rubric (some data) = .ok j) :
    j.total = (rubric.criteria.map fun cw => critScoreD data cw.1 * (cw.2 : ℚ)).sum ∧
    (∀ crit, alookup crit data = none → critScoreD data crit = 0) ∧
    (∀ (k : String) (v : Json), (∀ cw ∈ rubric.criteria, cw.1 ≠ k) → k ≠ "verdict" →
      score_one rubric (some (data ++ [(k, v)])) = .ok j) := by
  simp only [score_one, Except.bind, bind] at h
  rcases hsc : scoreCriteria data rubric.criteria 0 [] with e | tp
  · rw [hsc] at h; exact absurd h (by simp)
  · rw [hsc] at h
    simp only [Except.ok.injEq] at h
    refine ⟨?_, ?_, ?_⟩
    · rw [← h]
      simpa using scoreCriteria_total data rubric.criteria 0 [] tp.1 tp.2
        (by rw [hsc])
    · intro crit hnone
      simp [critScoreD, hnone, alookup]
    · intro k v hk hkv
      have hcong : scoreCriteria (data ++ [(k, v)]) rubric.criteria 0 [] =
          scoreCriteria data rubric.criteria 0 [] := by
        refine scoreCriteria_congr data (data ++ [(k, v)]) rubric.criteria ?_ 0 []
        intro cw hcw
        exact lookup_append_ne data k cw.1 v (hk cw hcw)
      simp only [score_one, Except.bind, bind, hcong, hsc]
      rw [lookup_append_ne data k "verdict" v (Ne.symm hkv), h]

/-- Witness for C7 at a concrete parsed object: soundness score 7 with
weight 3 and all other criteria absent gives total 3·7 + 0 + 0 + 0 + 0 = 21. -/
theorem claim_C7_witness :
    score_one DEFAULT_RUBRIC
      (some [("soundness", Json.obj [("score", Json.num 7)])]) =
      .ok ⟨21, [("soundness", ⟨7, 3, Json.str ""⟩), ("evidence", ⟨0, 2, Json.str ""⟩),
        ("constraints", ⟨0, 2, Json.str ""⟩), ("safety", ⟨0, 1, Json.str ""⟩),
        ("clarity", ⟨0, 1, Json.str ""⟩)], Json.str ""⟩ ∧
    (21 : ℚ) = ((DEFAULT_RUBRIC.criteria.map fun cw =>
      critScoreD [("soundness", Json.obj [("score", Json.num 7)])] cw.1 * (cw.2 : ℚ)).sum) := by
  have h : score_one DEFAULT_RUBRIC
      (some [("soundness", Json.obj [("score", Json.num 7)])]) =
      .ok ⟨21, [("soundness", ⟨7, 3, Json.str ""⟩), ("evidence", ⟨0, 2, Json.str ""⟩),
        ("constraints", ⟨0, 2, Json.str ""⟩), ("safety", ⟨0, 1, Json.str ""⟩),
        ("clarity", ⟨0, 1, Json.str ""⟩)], Json.str ""⟩ := by
    norm_num +decide [score_one, scoreCriteria, getScoreVal, pyGet, noteVal, pyFloat,
      DEFAULT_RUBRIC, alookup, Except.bind, bind]
  refine ⟨h, ?_⟩
  have := (claim_C7 DEFAULT_RUBRIC _ _ h).1
  simpa using this

/-! Lemmas for claim C1: the heuristic score in terms of lines. -/

/-- `splitLines` always produces at least one line. -/
theorem splitLines_ne_nil (t : List Char) : splitLines t ≠ [] := by
  cases t with
  | nil => simp [splitLines]
  | cons c rest =>
    simp only [splitLines]
    by_cases hc : c = '\n'
    · simp [hc]
    · simp only [hc, if_false]
      rcases h : splitLines rest with _ | ⟨l, ls⟩
      · simp
      · simp

/-- Structure of `splitLines` on a non-newline head. -/
theorem splitLines_cons_ne (c : Char) (rest : List Char) (hc : c ≠ '\n') :
    splitLines (c :: rest) =
      (c :: (splitLines rest).headI) :: (splitLines rest).tail := by
  rcases h : splitLines rest with _ | ⟨l, ls⟩
  · exact absurd h (splitLines_ne_nil rest)
  · simp [splitLines, hc, h]

/-- A newline-free pattern begins the first line of a text exactly when it
begins the text itself. -/
theorem headI_pfx (pat : List Char) (hnn : ∀ c ∈ pat, c ≠ '\n') :
    ∀ t : List Char, pfx pat ((splitLines t).headI) = pfx pat t := by
  induction pat with
  | nil => intro t; rfl
  | cons p ps ih =>
    intro t
    cases t with
    | nil => simp [splitLines, pfx]
    | cons c rest =>
      by_cases hc : c = '\n'
      · subst hc
        have hp : p ≠ '\n' := hnn p (List.mem_cons_self _ _)
        simp [splitLines, pfx, hp]
      · rw [splitLines_cons_ne c rest hc]
        show (decide (p = c) && pfx ps ((splitLines rest).headI)) =
          (decide (p = c) && pfx ps rest)
        rw [ih (fun d hd => hnn d (List.mem_cons_of_mem _ hd)) rest]

/-- A prefix of a list remains one after shortening the pattern. -/
theorem pfx_append_left (p q l : List Char) (h : pfx (p ++ q) l = true) :
    pfx p l = true := by
  induction p generalizing l with
  | nil => rfl
  | cons a as ih =>
    cases l with
    | nil => simp [pfx] at h
    | cons b bs =>
      simp only [List.cons_append, pfx, Bool.and_eq_true] at h ⊢
      exact ⟨h.1, ih bs h.2⟩

/-- A substring occurrence of `###` is in particular one of `##`. -/
theorem hasSub_hash3_imp (t : List Char) (h : hasSub "###".data t = true) :
    hasSub "##".data t = true := by
  induction t with
  | nil => simp [hasSub, pfx] at h
  | cons c rest ih =>
    simp only [hasSub, Bool.or_eq_true] at h ⊢
    rcases h with h | h
    · exact Or.inl (pfx_append_left "##".data "#".data (c :: rest) h)
    · exact Or.inr (ih h)

/-- The heading test of `RulesJudge._score` collapses to the `##` test. -/
theorem heading_or_collapse (t : List Char) :
    (hasSub "##".data t || hasSub "###".data t) = hasSub "##".data t := by
  rcases h2 : hasSub "##".data t with _ | _
  · rcases h3 : hasSub "###".data t with _ | _
    · simp
    · exact absurd (hasSub_hash3_imp t h3) (by simp [h2])
  · simp

/-- The keyword loop adds 1.5 per matched keyword. -/
theorem foldl_keywords (cond : List Char → Bool) (l : List (List Char)) :
    ∀ s : ℚ, l.foldl (fun s kw => if cond kw then s + 1.5 else s) s =
      s + 1.5 * (l.countP cond : ℚ) := by
  induction l with
  | nil => intro s; simp
  | cons kw rest ih =>
    intro s
    rcases hkw : cond kw with _ | _
    · simp only [List.foldl_cons, hkw, if_false, ih, List.countP_cons, hkw]
      norm_num
    · simp only [List.foldl_cons, hkw, if_true, ih, List.countP_cons, hkw]
      push_cast
      ring

/-- `pyCount` of `"\n- "` ignores a non-newline head character. -/
theorem pyCount_cons_ne (c : Char) (rest : List Char) (hc : c ≠ '\n') :
    pyCount "\n- ".data (c :: rest) = pyCount "\n- ".data rest := by
  have hp : pfx "\n- ".data (c :: rest) = false := by
    show pfx ['\n', '-', ' '] (c :: rest) = false
    simp [pfx, Ne.symm hc]
  rw [pyCount.eq_def]
  simp [hp]

/-- A successful `"- "` test exposes the first two characters. -/
theorem pfx_dash_space (rest : List Char) (h : pfx "- ".data rest = true) :
    ∃ r2, rest = '-' :: ' ' :: r2 := by
  match rest with
  | [] => simp [pfx] at h
  | [c] => simp [pfx] at h
  | c :: d :: r2 =>
    have : c = '-' ∧ d = ' ' := by
      have h' : pfx ['-', ' '] (c :: d :: r2) = true := h
      simp only [pfx, Bool.and_eq_true, decide_eq_true_eq] at h'
      exact ⟨h'.1.symm, h'.2.1.symm⟩
    exact ⟨r2, by simp [this.1, this.2]⟩

/-- Key step for C1: counting `"\n- "` occurrences plus a possible bullet on
the first line counts the bullet lines among all lines. -/
theorem pyCount_all_lines (t : List Char) :
    pyCount "\n- ".data t + (if pfx "- ".data t then 1 else 0) =
      (splitLines t).countP (fun l => pfx "- ".data l) := by
  induction t with
  | nil => simp [pyCount, splitLines, pfx]
  | cons c rest ih =>
    by_cases hc : c = '\n'
    · subst hc
      have hpfx2 : pfx "- ".data ('\n' :: rest) = false := by
        show pfx ['-', ' '] ('\n' :: rest) = false
        simp [pfx]
      have hpfx3 : pfx "\n- ".data ('\n' :: rest) = pfx "- ".data rest := by
        show pfx ['\n', '-', ' '] ('\n' :: rest) = pfx ['-', ' '] rest
        simp [pfx]
      have hsplit : splitLines ('\n' :: rest) = [] :: splitLines rest := by
        simp [splitLines]
      rcases hp : pfx "- ".data rest with _ | _
      · rw [pyCount, if_neg (by simp [hpfx3, hp]), hpfx2, hsplit]
        simp only [List.countP_cons, if_false]
        have : (pfx "- ".data [] : Bool) = false := by simp [pfx]
        rw [← ih, hp]
        simp [this]
      · obtain ⟨r2, hr2⟩ := pfx_dash_space rest hp
        rw [pyCount, if_pos (by simp [hpfx3, hp]), hpfx2, hsplit]
        have hrest : pyCount "\n- ".data rest = pyCount "\n- ".data r2 := by
          rw [hr2, pyCount_cons_ne '-' _ (by decide), pyCount_cons_ne ' ' _ (by decide)]
        have hdrop : List.drop ("\n- ".data.length - 1) rest = r2 := by
          rw [hr2]; rfl
        rw [hdrop]
        simp only [List.countP_cons]
        have : (pfx "- ".data [] : Bool) = false := by simp [pfx]
        rw [← ih, hp, hrest]
        simp [this]
        omega
    · have hkey2 : pfx "- ".data (c :: (splitLines rest).headI) =
          pfx "- ".data (c :: rest) := by
        show pfx ['-', ' '] _ = pfx ['-', ' '] _
        simp only [pfx]
        rw [headI_pfx [' '] (by simp) rest]
      have hkeyL : pfx "- ".data ((splitLines rest).headI) = pfx "- ".data rest :=
        headI_pfx "- ".data (by decide) rest
      rw [pyCount_cons_ne c rest hc, splitLines_cons_ne c rest hc]
      simp only [List.countP_cons, hkey2]
      have hih := ih
      have hcount : (splitLines rest).countP (fun l => pfx "- ".data l) =
          (if pfx "- ".data rest then 1 else 0) +
          ((splitLines rest).tail.countP (fun l => pfx "- ".data l)) := by
        rcases hsl : splitLines rest with _ | ⟨l, ls⟩
        · exact absurd hsl (splitLines_ne_nil rest)
        · have hl : pfx "- ".data l = pfx "- ".data rest := by
            have h2 := hkeyL
            rw [hsl] at h2
            simpa using h2
          simp only [List.countP_cons, List.tail_cons, hl]
          omega
      rw [hcount] at hih
      rcases hpc : pfx "- ".data (c :: rest) with _ | _ <;>
        rcases hpr : pfx "- ".data rest with _ | _ <;>
          simp only [hpc, hpr, if_true, if_false] at hih ⊢ <;> omega

set_option maxRecDepth 8000 in
/-- C1 (amended): the heuristic score counts one point per bullet line other
than the first line of the text (the code counts occurrences of the
three-character sequence newline–dash–space); with that correction the
stated scenario holds with the first answer scoring 5.0 (2 of its 3 parts:
one counted bullet, since the bullet on the very first line is missed, plus
heading 1.0 plus keywords 3.0), the second answer scoring 0.0, and the
heuristic judge declaring the first agent the winner. -/
theorem claim_C1 :
    (∀ t : List Char, rules_score t = specScore t) ∧
    rules_score "- one\n- two\n## Heading\nSecurity and safety matter.".data = 5 ∧
    rules_score "plain text, no bullets, no headings, nothing relevant.".data = 0 ∧
    (rulesJudge [("A", "- one\n- two\n## Heading\nSecurity and safety matter.".data),
      ("B", "plain text, no bullets, no headings, nothing relevant.".data)]).toOption.map
      Prod.fst = some "A" := by
  refine ⟨?_, ?_, ?_, ?_⟩
  · intro t
    have htail : (pyCount "\n- ".data t : ℚ) =
        ((splitLines t).tail.countP (fun l => pfx "- ".data l) : ℚ) := by
      have h := pyCount_all_lines t
      have hsplit : (splitLines t).countP (fun l => pfx "- ".data l) =
          (if pfx "- ".data t then 1 else 0) +
          ((splitLines t).tail.countP (fun l => pfx "- ".data l)) := by
        rcases hsl : splitLines t with _ | ⟨l, ls⟩
        · exact absurd hsl (splitLines_ne_nil t)
        · have hl : pfx "- ".data l = pfx "- ".data t := by
            have h2 := headI_pfx "- ".data (by decide) t
            rw [hsl] at h2
            simpa using h2
          simp only [List.countP_cons, List.tail_cons, hl]
          omega
      rw [hsplit] at h
      have : pyCount "\n- ".data t =
          (splitLines t).tail.countP (fun l => pfx "- ".data l) := by omega
      exact_mod_cast this
    simp only [rules_score, specScore]
    rw [heading_or_collapse, foldl_keywords, htail]
    split_ifs <;> push_cast <;> ring
  · norm_num +decide [rules_score, pyCount, pfx, hasSub, KEYWORDS, List.foldl]
  · norm_num +decide [rules_score, pyCount, pfx, hasSub, KEYWORDS, List.foldl]
  · norm_num +decide [rulesJudge, rules_score, pyCount, pfx, hasSub, KEYWORDS,
      pyMax, List.foldl]

set_option maxRecDepth 8000 in
/-- C1 as stated is false: the code counts `"\n- "` occurrences, which
misses a bullet on the very first line, so the stated scenario answer
scores 5.0, not the claimed 6.0 (its first line `- one` is not counted). -/
theorem claim_C1_counterexample :
    rules_score "- one\n- two\n## Heading\nSecurity and safety matter.".data = 5 ∧
    rules_score "- one\n- two\n## Heading\nSecurity and safety matter.".data ≠ 6 := by
  constructor
  · norm_num +decide [rules_score, pyCount, pfx, hasSub, KEYWORDS, List.foldl]
  · norm_num +decide [rules_score, pyCount, pfx, hasSub, KEYWORDS, List.foldl]

/-! Lemmas about the panel aggregation. -/

/-- `aggAdd` does not change the key column. -/
theorem aggAdd_fst (agg : List (String × ℚ)) (aid : String) (t : ℚ) :
    (aggAdd agg aid t).map Prod.fst = agg.map Prod.fst := by
  induction agg with
  | nil => rfl
  | cons p rest ih =>
    by_cases hp : p.1 = aid <;> simp [aggAdd, hp] at ih ⊢ <;> exact ih

/-- One member's inner accumulation loop does not change the key column. -/
theorem foldMember_fst (d : List (String × Judgement)) :
    ∀ agg : List (String × ℚ),
      (d.foldl (fun agg2 p => aggAdd agg2 p.1 p.2.total) agg).map Prod.fst =
        agg.map Prod.fst := by
  induction d with
  | nil => intro agg; rfl
  | cons p rest ih =>
    intro agg
    rw [List.foldl_cons, ih, aggAdd_fst]

/-- The outer member loop over the panels does not change the key column. -/
theorem foldPanels_fst (panels : List (List (String × Judgement))) :
    ∀ agg : List (String × ℚ),
      ((panels.foldl (fun agg d =>
        d.foldl (fun agg2 p => aggAdd agg2 p.1 p.2.total) agg) agg).map Prod.fst) =
      agg.map Prod.fst := by
  induction panels with
  | nil => intro agg; rfl
  | cons d rest ih =>
    intro agg
    rw [List.foldl_cons, ih, foldMember_fst]

/-- The panel aggregate is keyed exactly by the answers map, in order. -/
theorem panelAgg_fst (answers : List (String × List Char))
    (panels : List (List (String × Judgement))) :
    (panelAgg answers panels).map Prod.fst = answers.map Prod.fst := by
  rw [panelAgg, foldPanels_fst]
  simp

/-- Decomposition of a successful `panelJudge` run: the members all ran, the
panel is non-empty, the detail is the first member's, and the winner is the
`pyMax` of the aggregate. -/
theorem panelJudge_ok_parts (rubric : Rubric) (oracles : List JudgeOracle)
    (answers : List (String × List Char)) (w : String)
    (det : List (String × Judgement))
    (h : panelJudge rubric oracles answers = .ok (w, det)) :
    ∃ panels, mapExcept (fun o => gptJudge rubric o answers) oracles = .ok panels ∧
      panels ≠ [] ∧ det = (panels.headI).2 ∧
      ∃ q, pyMax (fun p => p.2) (panelAgg answers (panels.map fun wd => wd.2)) =
        some (w, q) := by
  simp only [panelJudge] at h
  rcases hme : mapExcept (fun o => gptJudge rubric o answers) oracles with e | panels
  · rw [hme] at h; exact absurd h (by simp)
  · rw [hme] at h
    dsimp only at h
    rcases hmax : pyMax (fun p => p.2) (panelAgg answers (panels.map fun wd => wd.2))
      with _ | m
    · rw [hmax] at h; exact absurd h (by simp)
    · rw [hmax] at h
      cases panels with
      | nil => exact absurd h (by simp)
      | cons p0 rest =>
        simp only [Except.ok.injEq, Prod.mk.injEq] at h
        refine ⟨p0 :: rest, rfl, by simp, h.2.symm, m.2, ?_⟩
        rw [hmax, ← h.1, Prod.mk.eta]

set_option maxHeartbeats 1000000 in
/-- C6: every judge strategy returns as winner an agent of maximal total,
breaking ties by first position in the answers map's insertion order. For
the heuristic judge the details list is keyed in answers order and the
winner is its first maximal-total entry; the same holds for the single-model
judge whenever it returns; for the panel judge the winner is the first
maximal entry of the aggregate totals list, which is keyed in answers
order. -/
theorem claim_C6 :
    (∀ answers : List (String × List Char), answers ≠ [] →
      ∃ w j, (rulesJudge answers).toOption.map Prod.fst = some w ∧
        FirstMax (fun q => q.2.total)
          (answers.map fun p =>
            (p.1, Judgement.mk (rules_score p.2) [] (Json.str "Heuristic score"))) (w, j)) ∧
    (∀ (rubric : Rubric) (oracle : JudgeOracle) (answers : List (String × List Char))
      (w : String) (det : List (String × Judgement)),
      gptJudge rubric oracle answers = .ok (w, det) →
      det.map Prod.fst = answers.map Prod.fst ∧
      ∃ j, FirstMax (fun q => q.2.total) det (w, j)) ∧
    (∀ (rubric : Rubric) (oracles : List JudgeOracle)
      (answers : List (String × List Char)) (w : String)
      (det : List (String × Judgement)),
      panelJudge rubric oracles answers = .ok (w, det) →
      ∃ panels, mapExcept (fun o => gptJudge rubric o answers) oracles = .ok panels ∧
        (panelAgg answers (panels.map fun wd => wd.2)).map Prod.fst =
          answers.map Prod.fst ∧
        ∃ q, FirstMax (fun p => p.2)
          (panelAgg answers (panels.map fun wd => wd.2)) (w, q)) := by
  refine ⟨?_, ?_, ?_⟩
  · intro answers h
    obtain ⟨w, hok, j, hfm⟩ := rulesJudge_spec answers h
    exact ⟨w, j, by rw [hok]; rfl, hfm⟩
  · intro rubric oracle answers w det h
    obtain ⟨hfst, _, hfm⟩ := gptJudge_ok_spec rubric oracle answers w det h
    exact ⟨hfst, hfm⟩
  · intro rubric oracles answers w det h
    obtain ⟨panels, hme, hne, hdet, q, hmax⟩ :=
      panelJudge_ok_parts rubric oracles answers w det h
    refine ⟨panels, hme, panelAgg_fst answers _, q, ?_⟩
    exact pyMax_firstMax (fun p : String × ℚ => p.2) _ _ hmax

set_option maxHeartbeats 1000000 in
/-- Witness for C6 on a concrete two-agent tie: both empty answers score 0
under every strategy (the single-model oracle never parses), and each
strategy's winner is the first-listed agent A. -/
theorem claim_C6_witness :
    (([("A", ([] : List Char)), ("B", [])] : List (String × List Char)) ≠ [] ∧
      (∃ w j, (rulesJudge [("A", ([] : List Char)), ("B", [])]).toOption.map
          Prod.fst = some w ∧
        FirstMax (fun q => q.2.total)
          ([("A", ([] : List Char)), ("B", [])].map fun p =>
            (p.1, Judgement.mk (rules_score p.2) [] (Json.str "Heuristic score"))) (w, j))) ∧
    (gptJudge DEFAULT_RUBRIC (fun _ _ => none) [("A", ([] : List Char)), ("B", [])] =
        .ok ("A", [("A", ⟨0, [], Json.str "Parsing failed"⟩),
          ("B", ⟨0, [], Json.str "Parsing failed"⟩)]) ∧
      ∃ j, FirstMax (fun q => q.2.total)
        [("A", (⟨0, [], Json.str "Parsing failed"⟩ : Judgement)),
          ("B", ⟨0, [], Json.str "Parsing failed"⟩)] ("A", j)) ∧
    (panelJudge DEFAULT_RUBRIC [fun _ _ => none, fun _ _ => none]
        [("A", ([] : List Char)), ("B", [])] =
        .ok ("A", [("A", ⟨0, [], Json.str "Parsing failed"⟩),
          ("B", ⟨0, [], Json.str "Parsing failed"⟩)]) ∧
      ∃ panels, mapExcept (fun o => gptJudge DEFAULT_RUBRIC o
          [("A", ([] : List Char)), ("B", [])])
          [fun _ _ => none, fun _ _ => none] = .ok panels ∧
        (panelAgg [("A", ([] : List Char)), ("B", [])]
          (panels.map fun wd => wd.2)).map Prod.fst =
          [("A", ([] : List Char)), ("B", [])].map Prod.fst ∧
        ∃ q, FirstMax (fun p => p.2)
          (panelAgg [("A", ([] : List Char)), ("B", [])]
            (panels.map fun wd => wd.2)) ("A", q)) := by
  have h1 : score_one DEFAULT_RUBRIC none = .ok ⟨0, [], Json.str "Parsing failed"⟩ := rfl
  have hg : gptJudge DEFAULT_RUBRIC (fun _ _ => none)
      [("A", ([] : List Char)), ("B", [])] =
      .ok ("A", [("A", ⟨0, [], Json.str "Parsing failed"⟩),
        ("B", ⟨0, [], Json.str "Parsing failed"⟩)]) := by
    simp only [gptJudge, mapExcept, h1, pyMax, List.foldl]
    norm_num
  have hp : panelJudge DEFAULT_RUBRIC [fun _ _ => none, fun _ _ => none]
      [("A", ([] : List Char)), ("B", [])] =
      .ok ("A", [("A", ⟨0, [], Json.str "Parsing failed"⟩),
        ("B", ⟨0, [], Json.str "Parsing failed"⟩)]) := by
    simp only [panelJudge, mapExcept, hg, panelAgg, aggAdd, pyMax, List.foldl, List.map]
    norm_num
  refine ⟨⟨by decide, claim_C6.1 [("A", ([] : List Char)), ("B", [])] (by decide)⟩,
    ⟨hg, ?_⟩, ⟨hp, ?_⟩⟩
  · exact (claim_C6.2.1 DEFAULT_RUBRIC (fun _ _ => none)
      [("A", ([] : List Char)), ("B", [])] "A" _ hg).2
  · exact claim_C6.2.2 DEFAULT_RUBRIC [fun _ _ => none, fun _ _ => none]
      [("A", ([] : List Char)), ("B", [])] "A" _ hp

/-! Pointwise description of the panel aggregate, for claims C4 and C10. -/

/-- `aggAdd` pointwise: only the targeted key gains `t`. -/
theorem lookup_aggAdd (agg : List (String × ℚ)) (aid x : String) (t : ℚ) :
    alookup x (aggAdd agg aid t) =
      (alookup x agg).map (fun v => if x = aid then v + t else v) := by
  induction agg with
  | nil => rfl
  | cons p rest ih =>
    simp only [aggAdd, List.map_cons] at ih ⊢
    by_cases ha : p.1 = aid
    · by_cases hp : p.1 = x
      · have hxa : x = aid := hp.symm.trans ha
        simp [alookup, ha, hp, hxa]
      · have hax : ¬aid = x := fun h => hp (ha.trans h)
        simp [alookup, ha, hp, hax, ih]
    · by_cases hp : p.1 = x
      · have hxa : ¬x = aid := fun h => ha (hp.trans h)
        simp [alookup, ha, hp, hxa]
      · simp [alookup, ha, hp, ih]

/-- One member's loop pointwise: each entry gains that member's
contribution for its key. -/
theorem lookup_foldMember (d : List (String × Judgement)) (x : String) :
    ∀ agg : List (String × ℚ),
      alookup x (d.foldl (fun agg2 p => aggAdd agg2 p.1 p.2.total) agg) =
        (alookup x agg).map (· + sumEntries d x) := by
  induction d with
  | nil =>
    intro agg
    rcases h : alookup x agg <;> simp [sumEntries, h]
  | cons p rest ih =>
    intro agg
    rw [List.foldl_cons, ih, lookup_aggAdd]
    rcases h : alookup x agg with _ | v
    · simp
    · simp only [Option.map_some, Option.map_map, Option.some.injEq]
      by_cases hx : x = p.1
      · simp [sumEntries, hx, Function.comp]
        try ring
      · have h2 : ¬p.1 = x := fun hh => hx hh.symm
        simp [sumEntries, hx, h2, Function.comp]
        try ring

/-- The whole panel loop pointwise. -/
theorem lookup_foldPanels (panels : List (List (String × Judgement))) (x : String) :
    ∀ agg : List (String × ℚ),
      alookup x (panels.foldl (fun agg d =>
        d.foldl (fun agg2 p => aggAdd agg2 p.1 p.2.total) agg) agg) =
        (alookup x agg).map (· + (panels.map fun d => sumEntries d x).sum) := by
  induction panels with
  | nil =>
    intro agg
    rcases h : alookup x agg <;> simp [h]
  | cons d rest ih =>
    intro agg
    rw [List.foldl_cons, ih, lookup_foldMember]
    rcases h : alookup x agg with _ | v
    · simp
    · simp only [Option.map_some, Option.map_map, Option.some.injEq, Function.comp]
      simp
      try ring

/-- Lookup in a map built by keying a function over the answers. -/
theorem lookup_map_keyed {β : Type} (answers : List (String × List Char))
    (g : String → β) (x : String) :
    alookup x (answers.map fun p => (p.1, g p.1)) =
      (alookup x answers).map (fun _ => g x) := by
  induction answers with
  | nil => rfl
  | cons p rest ih =>
    by_cases hp : p.1 = x
    · simp [alookup, hp]
    · simp [alookup, hp, ih]

/-- The panel aggregate pointwise: every answers key maps to the sum of the
members' contributions for it. -/
theorem lookup_panelAgg (answers : List (String × List Char))
    (panels : List (List (String × Judgement))) (x : String) :
    alookup x (panelAgg answers panels) =
      (alookup x answers).map (fun _ => (panels.map fun d => sumEntries d x).sum) := by
  rw [panelAgg, lookup_foldPanels]
  have : alookup x (answers.map fun p => (p.1, (0 : ℚ))) =
      (alookup x answers).map (fun _ => (0 : ℚ)) :=
    lookup_map_keyed answers (fun _ => (0 : ℚ)) x
  rw [this]
  rcases h : alookup x answers <;> simp

/-- An absent key looks up to `none`. -/
theorem alookup_eq_none {β : Type} (l : List (String × β)) (x : String)
    (h : x ∉ l.map Prod.fst) : alookup x l = none := by
  induction l with
  | nil => rfl
  | cons p rest ih =>
    simp only [List.map_cons, List.mem_cons] at h
    push_neg at h
    have h1 : ¬p.1 = x := fun hh => h.1 hh.symm
    simp [alookup, h1, ih h.2]

/-- For duplicate-free member keys, the loop contribution is exactly the
member's recorded total for that agent. -/
theorem sumEntries_eq_memberTotal (d : List (String × Judgement))
    (hnd : (d.map Prod.fst).Nodup) (x : String) :
    sumEntries d x = memberTotal d x := by
  induction d with
  | nil => simp [sumEntries, memberTotal, alookup]
  | cons p rest ih =>
    simp only [List.map_cons, List.nodup_cons] at hnd
    by_cases hp : p.1 = x
    · have hzero : sumEntries rest x = 0 := by
        have hnx : x ∉ rest.map Prod.fst := by
          rw [← hp]; exact hnd.1
        simp only [sumEntries]
        have : ∀ q ∈ rest, (if q.1 = x then q.2.total else 0) = 0 := by
          intro q hq
          have : q.1 ≠ x := by
            intro hqx
            exact hnx (by rw [← hqx]; exact List.mem_map_of_mem Prod.fst hq)
          simp [this]
        rw [List.map_congr_left this]
        simp
      simp [sumEntries, memberTotal, alookup, hp, hzero] at ih ⊢
      simpa [sumEntries] using hzero
    · simp only [sumEntries, memberTotal, alookup, List.map_cons, List.sum_cons, hp,
        if_false]
      simpa [sumEntries, memberTotal] using ih hnd.2

/-- Association lists with the same duplicate-free keys and the same lookups
are equal. -/
theorem alookup_ext {β : Type} (l₁ l₂ : List (String × β))
    (hk : l₁.map Prod.fst = l₂.map Prod.fst) (hnd : (l₁.map Prod.fst).Nodup)
    (hl : ∀ x, alookup x l₁ = alookup x l₂) : l₁ = l₂ := by
  induction l₁ generalizing l₂ with
  | nil =>
    cases l₂ with
    | nil => rfl
    | cons q t₂ => simp at hk
  | cons p t₁ ih =>
    cases l₂ with
    | nil => simp at hk
    | cons q t₂ =>
      simp only [List.map_cons, List.cons.injEq] at hk
      simp only [List.map_cons, List.nodup_cons] at hnd
      have hq1 : q.1 = p.1 := hk.1.symm
      have hv : p.2 = q.2 := by
        have h2 := hl p.1
        simp [alookup, hq1] at h2
        exact h2
      have htail : t₁ = t₂ := by
        refine ih t₂ hk.2 hnd.2 ?_
        intro x
        by_cases hx : p.1 = x
        · rw [alookup_eq_none t₁ x (by rw [← hx]; exact hnd.1),
            alookup_eq_none t₂ x (by rw [← hx, ← hk.2]; exact hnd.1)]
        · have h2 := hl x
          have hqx : ¬q.1 = x := by rw [hq1]; exact hx
          simpa [alookup, hx, hqx] using h2
      have hkey : p.1 = q.1 := hk.1
      calc p :: t₁ = (p.1, p.2) :: t₁ := by simp
        _ = (q.1, q.2) :: t₂ := by rw [hkey, hv, htail]
        _ = q :: t₂ := by simp

/-- Right-membership extraction from a `Forall₂` relation. -/
theorem forall2_mem_right {α β : Type} {R : α → β → Prop} :
    ∀ {l₁ : List α} {l₂ : List β}, List.Forall₂ R l₁ l₂ →
      ∀ b ∈ l₂, ∃ a ∈ l₁, R a b := by
  intro l₁ l₂ h
  induction h with
  | nil => simp
  | cons hr _ ih =>
    intro b hb
    rcases List.mem_cons.1 hb with rfl | hb
    · exact ⟨_, List.mem_cons_self _ _, hr⟩
    · obtain ⟨a, ha, hab⟩ := ih b hb
      exact ⟨a, List.mem_cons_of_mem _ ha, hab⟩

set_option maxHeartbeats 1000000 in
/-- C4: with `n ≥ 1` members that all return, the panel judge runs one
single-model judge per member over the same answers, sums each agent's
total across the members, picks as winner the first agent of maximal summed
total, and returns as per-agent detail exactly the first member's judgement
map (value-equal) — no aggregate detail. -/
theorem claim_C4 (rubric : Rubric) (oracles : List JudgeOracle)
    (answers : List (String × List Char))
    (panels : List (String × List (String × Judgement)))
    (hnd : (answers.map Prod.fst).Nodup)
    (hpan : mapExcept (fun o => gptJudge rubric o answers) oracles = .ok panels)
    (hn : oracles ≠ []) :
    panels.length = oracles.length ∧
    ∃ w q d0 rest, panels = d0 :: rest ∧
      panelJudge rubric oracles answers = .ok (w, d0.2) ∧
      FirstMax (fun p : String × ℚ => p.2)
        (answers.map fun p =>
          (p.1, (panels.map fun wd => memberTotal wd.2 p.1).sum)) (w, q) := by
  have hf2 := (mapExcept_ok_iff _ _ _).1 hpan
  have hlen : panels.length = oracles.length := hf2.length_eq.symm
  refine ⟨hlen, ?_⟩
  cases panels with
  | nil =>
    rw [List.length_nil] at hlen
    exact absurd (List.length_eq_zero.1 hlen.symm) hn
  | cons d0 rest =>
    have hmem : ∀ wd ∈ d0 :: rest, ∃ o ∈ oracles,
        gptJudge rubric o answers = .ok wd := forall2_mem_right hf2
    have hkeys : ∀ wd ∈ d0 :: rest, wd.2.map Prod.fst = answers.map Prod.fst := by
      intro wd hwd
      obtain ⟨o, _, ho⟩ := hmem wd hwd
      exact (gptJudge_ok_spec rubric o answers wd.1 wd.2
        (by rw [ho, Prod.mk.eta])).1
    have hane : answers ≠ [] := by
      obtain ⟨o, _, ho⟩ := hmem d0 (List.mem_cons_self _ _)
      exact (gptJudge_ok_spec rubric o answers d0.1 d0.2
        (by rw [ho, Prod.mk.eta])).2.1
    have hagg : panelAgg answers ((d0 :: rest).map fun wd => wd.2) =
        answers.map fun p =>
          (p.1, ((d0 :: rest).map fun wd => memberTotal wd.2 p.1).sum) := by
      refine alookup_ext _ _ ?_ ?_ ?_
      · rw [panelAgg_fst]
        simp
      · rw [panelAgg_fst]
        exact hnd
      · intro x
        rw [lookup_panelAgg, lookup_map_keyed answers
          (fun y => ((d0 :: rest).map fun wd => memberTotal wd.2 y).sum) x]
        have hsum : (((d0 :: rest).map fun wd => wd.2).map
            fun d => sumEntries d x).sum =
            ((d0 :: rest).map fun wd => memberTotal wd.2 x).sum := by
          rw [List.map_map]
          refine congrArg List.sum (List.map_congr_left ?_)
          intro wd hwd
          have hdnd : (wd.2.map Prod.fst).Nodup := by
            rw [hkeys wd hwd]; exact hnd
          exact sumEntries_eq_memberTotal wd.2 hdnd x
        rw [hsum]
    have hne2 : (answers.map fun p =>
        (p.1, ((d0 :: rest).map fun wd => memberTotal wd.2 p.1).sum)) ≠ [] := by
      simpa using hane
    obtain ⟨m, hm⟩ := pyMax_isSome (fun p : String × ℚ => p.2) _ hne2
    have hcomp : panelJudge rubric oracles answers = .ok (m.1, d0.2) := by
      simp only [panelJudge]
      rw [hpan]
      dsimp only
      rw [hagg, hm]
    refine ⟨m.1, m.2, d0, rest, rfl, hcomp, ?_⟩
    have := pyMax_firstMax (fun p : String × ℚ => p.2) _ m hm
    rwa [Prod.mk.eta]

set_option maxHeartbeats 1000000 in
/-- C10: the panel judge is well-defined only with at least one member.
With an empty panel the all-zero aggregate still determines a winner, but
the final access to the first member's detail raises `IndexError`; with at
least one member that returns, the detail access is in range and the first
member's detail map is returned. -/
theorem claim_C10 (rubric : Rubric) (answers : List (String × List Char))
    (oracles : List JudgeOracle)
    (panels : List (String × List (String × Judgement))) :
    (answers ≠ [] →
      panelJudge rubric [] answers = .error "IndexError: list index out of range") ∧
    (oracles ≠ [] →
      mapExcept (fun o => gptJudge rubric o answers) oracles = .ok panels →
      ∃ w d0 rest, panels = d0 :: rest ∧
        panelJudge rubric oracles answers = .ok (w, d0.2)) := by
  constructor
  · intro hne
    have hne2 : panelAgg answers
        (([] : List (String × List (String × Judgement))).map fun wd => wd.2) ≠ [] := by
      intro h
      apply hne
      have := panelAgg_fst answers
        (([] : List (String × List (String × Judgement))).map fun wd => wd.2)
      rw [h] at this
      exact List.map_eq_nil.1 this.symm
    obtain ⟨m, hm⟩ := pyMax_isSome (fun p : String × ℚ => p.2) _ hne2
    simp only [panelJudge, mapExcept]
    rw [hm]
  · intro hn hpan
    have hf2 := (mapExcept_ok_iff _ _ _).1 hpan
    have hlen : panels.length = oracles.length := hf2.length_eq.symm
    cases panels with
    | nil =>
      rw [List.length_nil] at hlen
      exact absurd (List.length_eq_zero.1 hlen.symm) hn
    | cons d0 rest =>
      have hane : answers ≠ [] := by
        obtain ⟨o, _, ho⟩ := forall2_mem_right hf2 d0 (List.mem_cons_self _ _)
        exact (gptJudge_ok_spec rubric o answers d0.1 d0.2
          (by rw [ho, Prod.mk.eta])).2.1
      have hne2 : panelAgg answers ((d0 :: rest).map fun wd => wd.2) ≠ [] := by
        intro h
        apply hane
        have := panelAgg_fst answers ((d0 :: rest).map fun wd => wd.2)
        rw [h] at this
        exact List.map_eq_nil.1 this.symm
      obtain ⟨m, hm⟩ := pyMax_isSome (fun p : String × ℚ => p.2) _ hne2
      refine ⟨m.1, d0, rest, rfl, ?_⟩
      simp only [panelJudge]
      rw [hpan]
      dsimp only
      rw [hm]

set_option maxHeartbeats 1000000 in
/-- Witness for C4: a 3-member panel (the source default) of members whose
responses never parse, over two agents. -/
theorem claim_C4_witness :
    (([("A", zeroDetails), ("A", zeroDetails), ("A", zeroDetails)] :
      List (String × List (String × Judgement))).length =
      ([noneOracle, noneOracle, noneOracle] : List JudgeOracle).length) ∧
    ∃ w q d0 rest,
      ([("A", zeroDetails), ("A", zeroDetails), ("A", zeroDetails)] :
        List (String × List (String × Judgement))) = d0 :: rest ∧
      panelJudge DEFAULT_RUBRIC [noneOracle, noneOracle, noneOracle]
        [("A", ([] : List Char)), ("B", [])] = .ok (w, d0.2) ∧
      FirstMax (fun p : String × ℚ => p.2)
        ([("A", ([] : List Char)), ("B", [])].map fun p =>
          (p.1, (([("A", zeroDetails), ("A", zeroDetails), ("A", zeroDetails)] :
            List (String × List (String × Judgement))).map
              fun wd => memberTotal wd.2 p.1).sum)) (w, q) := by
  have h1 : score_one DEFAULT_RUBRIC none = .ok zeroJudgement := rfl
  have hg : gptJudge DEFAULT_RUBRIC noneOracle [("A", ([] : List Char)), ("B", [])] =
      .ok ("A", zeroDetails) := by
    simp only [gptJudge, mapExcept, noneOracle, h1, pyMax, List.foldl, zeroDetails]
    norm_num [zeroJudgement]
  have hpan : mapExcept (fun o => gptJudge DEFAULT_RUBRIC o
      [("A", ([] : List Char)), ("B", [])])
      [noneOracle, noneOracle, noneOracle] =
      .ok [("A", zeroDetails), ("A", zeroDetails), ("A", zeroDetails)] := by
    simp only [mapExcept, hg]
  exact claim_C4 DEFAULT_RUBRIC [noneOracle, noneOracle, noneOracle]
    [("A", ([] : List Char)), ("B", [])]
    [("A", zeroDetails), ("A", zeroDetails), ("A", zeroDetails)]
    (by decide) hpan (List.cons_ne_nil _ _)

set_option maxHeartbeats 1000000 in
/-- Witness for C10: an empty panel fails with `IndexError` on a one-agent
answers map, while a single never-parsing member succeeds and returns its
own detail map. -/
theorem claim_C10_witness :
    (panelJudge DEFAULT_RUBRIC [] [("A", ([] : List Char))] =
      .error "IndexError: list index out of range") ∧
    ∃ w d0 rest,
      ([("A", zeroDetails)] : List (String × List (String × Judgement))) = d0 :: rest ∧
      panelJudge DEFAULT_RUBRIC [noneOracle]
        [("A", ([] : List Char)), ("B", [])] = .ok (w, d0.2) := by
  have h1 : score_one DEFAULT_RUBRIC none = .ok zeroJudgement := rfl
  have hg : gptJudge DEFAULT_RUBRIC noneOracle [("A", ([] : List Char)), ("B", [])] =
      .ok ("A", zeroDetails) := by
    simp only [gptJudge, mapExcept, noneOracle, h1, pyMax, List.foldl, zeroDetails]
    norm_num [zeroJudgement]
  have hpan : mapExcept (fun o => gptJudge DEFAULT_RUBRIC o
      [("A", ([] : List Char)), ("B", [])]) [noneOracle] =
      .ok [("A", zeroDetails)] := by
    simp only [mapExcept, hg]
  exact ⟨(claim_C10 DEFAULT_RUBRIC [("A", ([] : List Char))] [] []).1 (by decide),
    (claim_C10 DEFAULT_RUBRIC [("A", ([] : List Char)), ("B", [])] [noneOracle]
      [("A", zeroDetails)]).2 (List.cons_ne_nil _ _) hpan⟩

/-- The inner critic loop of `_critique_round`: trace extension. -/
theorem critiqueInner_trace (agents : List (String × AgentOracle))
    (t : String × List Char) :
    ∀ acc : List (String × List (List Char)) × List Ev,
      (agents.foldl
        (fun acc2 p =>
          if p.1 = t.1 then acc2
          else
            ((acc2.1.map fun q =>
                if q.1 = t.1 then (q.1, q.2 ++ [p.1.data ++ ": ".data ++ p.2.critique t.2])
                else q),
             acc2.2 ++ [.critique p.1 t.1]))
        acc).2 = acc.2 ++ critiquePiece agents t.1 := by
  induction agents with
  | nil => intro acc; simp [critiquePiece]
  | cons p rest ih =>
    intro acc
    by_cases hp : p.1 = t.1
    · simp only [List.foldl_cons, hp, if_true, ih, critiquePiece, List.filter_cons,
        decide_not]
      simp [hp]
    · simp only [List.foldl_cons, hp, if_false, ih, critiquePiece, List.filter_cons,
        decide_not]
      simp [hp, List.append_assoc]

/-- The inner critic loop: the key column of the critiques map is unchanged. -/
theorem critiqueInner_fst (agents : List (String × AgentOracle))
    (t : String × List Char) :
    ∀ acc : List (String × List (List Char)) × List Ev,
      (agents.foldl
        (fun acc2 p =>
          if p.1 = t.1 then acc2
          else
            ((acc2.1.map fun q =>
                if q.1 = t.1 then (q.1, q.2 ++ [p.1.data ++ ": ".data ++ p.2.critique t.2])
                else q),
             acc2.2 ++ [.critique p.1 t.1]))
        acc).1.map Prod.fst = acc.1.map Prod.fst := by
  induction agents with
  | nil => intro acc; rfl
  | cons p rest ih =>
    intro acc
    by_cases hp : p.1 = t.1
    · simp only [List.foldl_cons, hp, if_true, ih]
    · simp only [List.foldl_cons, hp, if_false, ih]
      rw [List.map_map]
      refine List.map_congr_left ?_
      intro q _
      by_cases hq : q.1 = t.1 <;> simp [hq]

/-- The inner critic loop preserves the no-self-critique invariant: every
appended entry is authored by a critic different from its target. -/
theorem critiqueInner_noself (agents : List (String × AgentOracle))
    (t : String × List Char) :
    ∀ acc : List (String × List (List Char)) × List Ev,
      NoSelfCritique acc.1 →
      NoSelfCritique (agents.foldl
        (fun acc2 p =>
          if p.1 = t.1 then acc2
          else
            ((acc2.1.map fun q =>
                if q.1 = t.1 then (q.1, q.2 ++ [p.1.data ++ ": ".data ++ p.2.critique t.2])
                else q),
             acc2.2 ++ [.critique p.1 t.1]))
        acc).1 := by
  induction agents with
  | nil => intro acc h; exact h
  | cons p rest ih =>
    intro acc h
    by_cases hp : p.1 = t.1
    · simp only [List.foldl_cons, hp, if_true]
      exact ih acc h
    · simp only [List.foldl_cons, hp, if_false]
      refine ih _ ?_
      intro pr hpr e he
      simp only [List.mem_map] at hpr
      obtain ⟨q, hq, hqe⟩ := hpr
      subst hqe
      by_cases hqt : q.1 = t.1
      · simp only [hqt, if_true] at he ⊢
        rcases List.mem_append.1 he with he | he
        · obtain ⟨aid, c, haid, hec⟩ := h q hq e he
          rw [hqt] at haid
          exact ⟨aid, c, haid, hec⟩
        · rcases List.mem_singleton.1 he with rfl
          exact ⟨p.1, p.2.critique t.2, hp, rfl⟩
      · simp only [hqt, if_false] at he ⊢
        exact h q hq e he

/-- Trace of a whole critique round: the concatenated per-target pieces. -/
theorem critiqueRound_trace (agents : List (String × AgentOracle))
    (answers : List (String × List Char)) :
    (critiqueRound agents answers).2 =
      (answers.map fun t => critiquePiece agents t.1).join := by
  rw [critiqueRound]
  have main : ∀ (ans : List (String × List Char))
      (acc : List (String × List (List Char)) × List Ev),
      (ans.foldl (fun acc t =>
        agents.foldl
          (fun acc2 p =>
            if p.1 = t.1 then acc2
            else
              ((acc2.1.map fun q =>
                  if q.1 = t.1 then
                    (q.1, q.2 ++ [p.1.data ++ ": ".data ++ p.2.critique t.2])
                  else q),
               acc2.2 ++ [.critique p.1 t.1]))
          acc) acc).2 =
      acc.2 ++ (ans.map fun t => critiquePiece agents t.1).join := by
    intro ans
    induction ans with
    | nil => intro acc; simp
    | cons t rest ih =>
      intro acc
      rw [List.foldl_cons, ih]
      rw [critiqueInner_trace agents t acc]
      simp [List.append_assoc]
  rw [main]
  rfl

/-- The critiques map of a round is keyed by the agents, in order. -/
theorem critiqueRound_fst (agents : List (String × AgentOracle))
    (answers : List (String × List Char)) :
    (critiqueRound agents answers).1.map Prod.fst = agents.map Prod.fst := by
  rw [critiqueRound]
  have main : ∀ (ans : List (String × List Char))
      (acc : List (String × List (List Char)) × List Ev),
      (ans.foldl (fun acc t =>
        agents.foldl
          (fun acc2 p =>
            if p.1 = t.1 then acc2
            else
              ((acc2.1.map fun q =>
                  if q.1 = t.1 then
                    (q.1, q.2 ++ [p.1.data ++ ": ".data ++ p.2.critique t.2])
                  else q),
               acc2.2 ++ [.critique p.1 t.1]))
          acc) acc).1.map Prod.fst =
      acc.1.map Prod.fst := by
    intro ans
    induction ans with
    | nil => intro acc; rfl
    | cons t rest ih =>
      intro acc
      rw [List.foldl_cons, ih, critiqueInner_fst]
  rw [main]
  simp

/-- A full critique round never stores a self-authored critique. -/
theorem critiqueRound_noself (agents : List (String × AgentOracle))
    (answers : List (String × List Char)) :
    NoSelfCritique (critiqueRound agents answers).1 := by
  rw [critiqueRound]
  have main : ∀ (ans : List (String × List Char))
      (acc : List (String × List (List Char)) × List Ev),
      NoSelfCritique acc.1 →
      NoSelfCritique (ans.foldl (fun acc t =>
        agents.foldl
          (fun acc2 p =>
            if p.1 = t.1 then acc2
            else
              ((acc2.1.map fun q =>
                  if q.1 = t.1 then
                    (q.1, q.2 ++ [p.1.data ++ ": ".data ++ p.2.critique t.2])
                  else q),
               acc2.2 ++ [.critique p.1 t.1]))
          acc) acc).1 := by
    intro ans
    induction ans with
    | nil => intro acc h; exact h
    | cons t rest ih =>
      intro acc h
      rw [List.foldl_cons]
      exact ih _ (critiqueInner_noself agents t acc h)
  refine main answers _ ?_
  intro pr hpr e he
  simp only [List.mem_map] at hpr
  obtain ⟨q, _, hqe⟩ := hpr
  rw [← hqe] at he
  simp at he

/-- Counting a crosswise predicate over a mapped list. -/
theorem countP_map_true {α : Type} (l : List α) (f : α → Ev) (pred : Ev → Bool)
    (h : ∀ x ∈ l, pred (f x) = true) : (l.map f).countP pred = l.length := by
  rw [List.countP_map]
  exact List.countP_eq_length.2 h

/-- A mapped list contributes nothing to a predicate it never satisfies. -/
theorem countP_map_false {α : Type} (l : List α) (f : α → Ev) (pred : Ev → Bool)
    (h : ∀ x ∈ l, pred (f x) = false) : (l.map f).countP pred = 0 := by
  rw [List.countP_map]
  exact List.countP_eq_zero.2 (by simpa using h)

/-- Splitting a predicate count into hits and misses. -/
theorem countP_add_not {α : Type} (p : α → Bool) (l : List α) :
    l.countP p + l.countP (fun a => !(p a)) = l.length := by
  induction l with
  | nil => rfl
  | cons x xs ih =>
    rcases h : p x with _ | _ <;> simp [List.countP_cons, h] <;> omega

/-- Sum of a constant map. -/
theorem sum_map_const {α : Type} (l : List α) (k : ℕ) :
    (l.map fun _ => k).sum = l.length * k := by
  induction l with
  | nil => simp
  | cons a t ih =>
    simp [ih, Nat.succ_mul]
    ring

/-- Size of one target's critique piece under unique agent ids: everyone but
the target critiques once. -/
theorem critiquePiece_length (agents : List (String × AgentOracle)) (tid : String)
    (hnd : (agents.map Prod.fst).Nodup) (hmem : tid ∈ agents.map Prod.fst) :
    (critiquePiece agents tid).length = agents.length - 1 := by
  have hcount : agents.countP (fun p => decide (p.1 = tid)) = 1 := by
    have h1 : agents.countP (fun p => decide (p.1 = tid)) =
        (agents.map Prod.fst).count tid := by
      rw [List.count_eq_countP, List.countP_map]
      refine List.countP_congr ?_
      intro p _
      by_cases hp : p.1 = tid <;> simp [Function.comp, hp]
    rw [h1]
    exact List.count_eq_one_of_mem hnd hmem
  have hsplit := countP_add_not (fun p : String × AgentOracle =>
    decide (p.1 = tid)) agents
  rw [hcount] at hsplit
  simp only [critiquePiece, List.length_map, ← List.countP_eq_length_filter]
  have hcong : agents.countP (fun p => decide ¬(p.1 = tid)) =
      agents.countP (fun p : String × AgentOracle => !(decide (p.1 = tid))) := by
    refine List.countP_congr ?_
    intro p _
    simp [decide_not]
  omega

/-- Every event of a critique piece is a critique call. -/
theorem critiquePiece_events (agents : List (String × AgentOracle)) (tid : String) :
    ∀ ev ∈ critiquePiece agents tid, ∃ a, ev = Ev.critique a tid ∧ a ≠ tid := by
  intro ev hev
  simp only [critiquePiece, List.mem_map, List.mem_filter] at hev
  obtain ⟨p, ⟨_, hp⟩, hevp⟩ := hev
  exact ⟨p.1, hevp.symm, by simpa using hp⟩

/-- Trace counts for one whole critique round under unique agent ids and a
round-invariant answers map. -/
theorem critiqueRound_counts (agents : List (String × AgentOracle))
    (answers : List (String × List Char))
    (hnd : (agents.map Prod.fst).Nodup)
    (hkeys : answers.map Prod.fst = agents.map Prod.fst) :
    (critiqueRound agents answers).2.countP isCritiqueEv =
      agents.length * (agents.length - 1) ∧
    (critiqueRound agents answers).2.countP isProposeEv = 0 ∧
    (critiqueRound agents answers).2.countP isDefendEv = 0 := by
  rw [critiqueRound_trace]
  have hall : ∀ ev ∈ (answers.map fun t => critiquePiece agents t.1).join,
      isCritiqueEv ev = true ∧ isProposeEv ev = false ∧ isDefendEv ev = false := by
    intro ev hev
    simp only [List.mem_join, List.mem_map] at hev
    obtain ⟨piece, ⟨t, _, hpt⟩, hev⟩ := hev
    obtain ⟨a, ha, _⟩ := critiquePiece_events agents t.1 ev (hpt ▸ hev)
    subst ha
    exact ⟨rfl, rfl, rfl⟩
  have hlenans : answers.length = agents.length := by
    have := congrArg List.length hkeys
    simpa using this
  refine ⟨?_, ?_, ?_⟩
  · have hlen : ((answers.map fun t => critiquePiece agents t.1).join).length =
        answers.length * (agents.length - 1) := by
      rw [List.length_join]
      have hmap : (answers.map fun t => critiquePiece agents t.1).map List.length =
          answers.map fun _ => agents.length - 1 := by
        rw [List.map_map]
        refine List.map_congr_left ?_
        intro t ht
        have hm : t.1 ∈ agents.map Prod.fst := by
          rw [← hkeys]
          exact List.mem_map_of_mem Prod.fst ht
        exact critiquePiece_length agents t.1 hnd hm
      rw [hmap, sum_map_const]
    rw [List.countP_eq_length.2 (fun ev hev => (hall ev hev).1), hlen, hlenans]
  · exact List.countP_eq_zero.2 (by
      intro ev hev
      simp [(hall ev hev).2.1])
  · exact List.countP_eq_zero.2 (by
      intro ev hev
      simp [(hall ev hev).2.2])

/-- Trace counts of a propose round: one propose call per agent. -/
theorem proposeRound_counts (agents : List (String × AgentOracle))
    (q : List Char) (cons : Option (List Char)) :
    (proposeRound agents q cons).2.countP isProposeEv = agents.length ∧
    (proposeRound agents q cons).2.countP isCritiqueEv = 0 ∧
    (proposeRound agents q cons).2.countP isDefendEv = 0 ∧
    (proposeRound agents q cons).1.map Prod.fst = agents.map Prod.fst := by
  refine ⟨?_, ?_, ?_, ?_⟩
  · exact countP_map_true agents _ _ (fun x _ => rfl)
  · exact countP_map_false agents _ _ (fun x _ => rfl)
  · exact countP_map_false agents _ _ (fun x _ => rfl)
  · simp [proposeRound]

/-- Trace counts of a defend round: one defend call per agent. -/
theorem defendRound_counts (agents : List (String × AgentOracle))
    (answers : List (String × List Char))
    (critiques : List (String × List (List Char))) :
    (defendRound agents answers critiques).2.countP isDefendEv = agents.length ∧
    (defendRound agents answers critiques).2.countP isProposeEv = 0 ∧
    (defendRound agents answers critiques).2.countP isCritiqueEv = 0 ∧
    (defendRound agents answers critiques).1.map Prod.fst = agents.map Prod.fst := by
  refine ⟨?_, ?_, ?_, ?_⟩
  · exact countP_map_true agents _ _ (fun x _ => rfl)
  · exact countP_map_false agents _ _ (fun x _ => rfl)
  · exact countP_map_false agents _ _ (fun x _ => rfl)
  · simp [defendRound]

/-- The critique/defend loop of `Debate.run`: answers stay keyed by the
agents, and each iteration adds `N×(N−1)` critique calls and `N` defend
calls to the trace, with no propose calls. -/
theorem debateLoop_spec (agents : List (String × AgentOracle))
    (hnd : (agents.map Prod.fst).Nodup) :
    ∀ (r : ℕ) (answers : List (String × List Char)) (trace : List Ev),
      answers.map Prod.fst = agents.map Prod.fst →
      ((debateLoop agents r answers trace).1.map Prod.fst = agents.map Prod.fst ∧
       (debateLoop agents r answers trace).2.countP isProposeEv =
         trace.countP isProposeEv ∧
       (debateLoop agents r answers trace).2.countP isCritiqueEv =
         trace.countP isCritiqueEv + r * (agents.length * (agents.length - 1)) ∧
       (debateLoop agents r answers trace).2.countP isDefendEv =
         trace.countP isDefendEv + r * agents.length) := by
  intro r
  induction r with
  | zero =>
    intro answers trace hkeys
    exact ⟨hkeys, rfl, by simp [debateLoop], by simp [debateLoop]⟩
  | succ n ih =>
    intro answers trace hkeys
    have hc := critiqueRound_counts agents answers hnd hkeys
    have hd := defendRound_counts agents answers (critiqueRound agents answers).1
    have hrec := ih (defendRound agents answers (critiqueRound agents answers).1).1
      (trace ++ (critiqueRound agents answers).2 ++
        (defendRound agents answers (critiqueRound agents answers).1).2) hd.2.2.2
    simp only [debateLoop]
    refine ⟨hrec.1, ?_, ?_, ?_⟩
    · rw [hrec.2.1]
      simp [List.countP_append, hc.2.1, hd.2.1]
    · rw [hrec.2.2.1]
      simp only [List.countP_append, hc.1, hd.2.2.1]
      ring
    · rw [hrec.2.2.2]
      simp only [List.countP_append, hc.2.2, hd.1]
      ring

/-- C5: for a debate over `N ≥ 2` agents with unique ids and `r ∈ [1,6]`
rounds, exactly `N` propose calls, `r×N×(N−1)` critique calls and `r×N`
defend calls occur, and the final answers map passed to the judge and the
synthesis has exactly one entry per configured agent, in order. -/
theorem claim_C5 (agents : List (String × AgentOracle))
    (q : List Char) (cons : Option (List Char)) (r : ℕ)
    (hnd : (agents.map Prod.fst).Nodup) (hN : 2 ≤ agents.length)
    (hr1 : 1 ≤ r) (hr6 : r ≤ 6) :
    (debateRun agents q cons r).2.countP isProposeEv = agents.length ∧
    (debateRun agents q cons r).2.countP isCritiqueEv =
      r * (agents.length * (agents.length - 1)) ∧
    (debateRun agents q cons r).2.countP isDefendEv = r * agents.length ∧
    (debateRun agents q cons r).1.map Prod.fst = agents.map Prod.fst := by
  have hp := proposeRound_counts agents q cons
  have hl := debateLoop_spec agents hnd r (proposeRound agents q cons).1
    (proposeRound agents q cons).2 hp.2.2.2
  rw [debateRun]
  refine ⟨?_, ?_, ?_, hl.1⟩
  · rw [hl.2.1, hp.1]
  · rw [hl.2.2.1, hp.2.1]
    omega
  · rw [hl.2.2.2, hp.2.2.1]
    omega

/-- C9: in every critique round, a target's critique list contains only
entries authored by other agents, and no critique capability call has its
critic equal to its target. -/
theorem claim_C9 (agents : List (String × AgentOracle))
    (answers : List (String × List Char)) :
    (∀ pr ∈ (critiqueRound agents answers).1, ∀ e ∈ pr.2,
      ∃ aid c, aid ≠ pr.1 ∧ e = aid.data ++ ": ".data ++ c) ∧
    (∀ ev ∈ (critiqueRound agents answers).2, ∀ a t,
      ev = Ev.critique a t → a ≠ t) := by
  constructor
  · exact critiqueRound_noself agents answers
  · intro ev hev a t hat
    rw [critiqueRound_trace] at hev
    simp only [List.mem_join, List.mem_map] at hev
    obtain ⟨piece, ⟨tt, _, hpt⟩, hev⟩ := hev
    obtain ⟨a2, ha2, hne⟩ := critiquePiece_events agents tt.1 ev (hpt ▸ hev)
    rw [hat] at ha2
    simp only [Ev.critique.injEq] at ha2
    rw [ha2.1, ha2.2]
    exact hne

/-- A critique round's trace depends on the answers map only through its
keys. -/
theorem critiqueRound_trace_congr (agents : List (String × AgentOracle))
    (ans1 ans2 : List (String × List Char))
    (hkeys : ans1.map Prod.fst = ans2.map Prod.fst) :
    (critiqueRound agents ans1).2 = (critiqueRound agents ans2).2 := by
  rw [critiqueRound_trace, critiqueRound_trace]
  have h1 : ∀ ans : List (String × List Char),
      (ans.map fun t => critiquePiece agents t.1) =
        (ans.map Prod.fst).map (critiquePiece agents) := by
    intro ans
    rw [List.map_map]
    rfl
  rw [h1, h1, hkeys]

/-- The whole loop's trace depends on the initial answers only through its
keys. -/
theorem debateLoop_trace_congr (agents : List (String × AgentOracle)) :
    ∀ (r : ℕ) (ans1 ans2 : List (String × List Char)) (trace : List Ev),
      ans1.map Prod.fst = ans2.map Prod.fst →
      (debateLoop agents r ans1 trace).2 = (debateLoop agents r ans2 trace).2 := by
  intro r
  induction r with
  | zero => intro ans1 ans2 trace _; rfl
  | succ n ih =>
    intro ans1 ans2 trace hkeys
    simp only [debateLoop]
    rw [critiqueRound_trace_congr agents ans1 ans2 hkeys]
    exact ih _ _ _ (by rw [(defendRound_counts agents ans1 _).2.2.2,
      (defendRound_counts agents ans2 _).2.2.2])

/-- C2 (amended): the core performs no validation of the question text. A
session with the empty question is not rejected: it runs the same protocol,
issuing exactly the same capability-call trace as with any other question
and constraints, and in particular at least one propose call occurs. (Only
the out-of-scope UI layers check for an empty question; no
ConfigurationError exists in the core path.) -/
theorem claim_C2 (agents : List (String × AgentOracle)) (q : List Char)
    (cons cons2 : Option (List Char)) (r : ℕ)
    (hnd : (agents.map Prod.fst).Nodup) (h : agents ≠ []) :
    (debateRun agents [] cons r).2 = (debateRun agents q cons2 r).2 ∧
    0 < (debateRun agents [] cons r).2.countP isProposeEv := by
  constructor
  · rw [debateRun, debateRun]
    exact debateLoop_trace_congr agents r _ _ _
      (by rw [(proposeRound_counts agents [] cons).2.2.2,
        (proposeRound_counts agents q cons2).2.2.2])
  · have hp := proposeRound_counts agents [] cons
    have hl := debateLoop_spec agents hnd r (proposeRound agents [] cons).1
      (proposeRound agents [] cons).2 hp.2.2.2
    rw [debateRun, hl.2.1, hp.1]
    have : agents.length ≠ 0 := fun hz => h (List.length_eq_zero.1 hz)
    omega

/-- C2 as stated is false: with the empty question, a concrete two-agent
one-round debate issues two propose capability calls (one per agent), so
propose calls do occur for an empty question and no rejection happens. -/
theorem claim_C2_counterexample :
    (debateRun [("A", constAgent), ("B", constAgent)] [] none 1).2.countP
      isProposeEv = 2 := by
  decide

/-- Witness for C2 on a concrete two-agent two-round session. -/
theorem claim_C2_witness :
    (debateRun [("A", constAgent), ("B", constAgent)] [] none 2).2 =
      (debateRun [("A", constAgent), ("B", constAgent)] "q".data
        (some "c".data) 2).2 ∧
    0 < (debateRun [("A", constAgent), ("B", constAgent)] [] none 2).2.countP
      isProposeEv :=
  claim_C2 [("A", constAgent), ("B", constAgent)] "q".data none
    (some "c".data) 2 (by decide) (List.cons_ne_nil _ _)

/-- Witness for C5 on a concrete two-agent one-round debate: 2 propose
calls, 2×1 critique calls, 2 defend calls, answers keyed A then B. -/
theorem claim_C5_witness :
    (debateRun [("A", constAgent), ("B", constAgent)] [] none 1).2.countP
      isProposeEv = 2 ∧
    (debateRun [("A", constAgent), ("B", constAgent)] [] none 1).2.countP
      isCritiqueEv = 2 ∧
    (debateRun [("A", constAgent), ("B", constAgent)] [] none 1).2.countP
      isDefendEv = 2 ∧
    (debateRun [("A", constAgent), ("B", constAgent)] [] none 1).1.map
      Prod.fst = ["A", "B"] := by
  have h := claim_C5 [("A", constAgent), ("B", constAgent)] [] none 1
    (by decide) (by decide) (by decide) (by decide)
  refine ⟨by simpa using h.1, by simpa using h.2.1, by simpa using h.2.2.1,
    by simpa using h.2.2.2⟩

/-- Witness for C9 on a concrete critique round: agent A's critique list
holds only the entry authored by B, and the issued critique call B→A has
distinct critic and target. -/
theorem claim_C9_witness :
    (∃ aid c, aid ≠ "A" ∧ ("B: x".data : List Char) = aid.data ++ ": ".data ++ c) ∧
    ("B" : String) ≠ "A" :=
  ⟨(claim_C9 [("A", constAgent), ("B", constAgent)] [("A", []), ("B", [])]).1
      ("A", ["B: x".data]) (by decide) "B: x".data (by decide),
   (claim_C9 [("A", constAgent), ("B", constAgent)] [("A", []), ("B", [])]).2
      (Ev.critique "B" "A") (by decide) "B" "A" rfl⟩

/-! Lemmas for claim C8: headings of the synthesis. -/

/-- In a duplicate-free list a member is counted exactly once. -/
theorem count_eq_one_nodup {α : Type} [BEq α] [LawfulBEq α] (l : List α) (a : α)
    (hnd : l.Nodup) (ha : a ∈ l) : l.count a = 1 := by
  induction l with
  | nil => exact absurd ha (List.not_mem_nil a)
  | cons x xs ih =>
    simp only [List.nodup_cons] at hnd
    rcases List.mem_cons.1 ha with rfl | ha2
    · have hz : xs.count a = 0 := List.count_eq_zero.2 hnd.1
      simp [List.count_cons, hz]
    · have hxa : ((a == x) = true) → False := by
        intro hb
        have hax2 : a = x := by simpa using hb
        subst hax2
        exact hnd.1 ha2
      have hax : ((x == a) = true) → False := by
        intro hb
        have hax2 : x = a := by simpa using hb
        subst hax2
        exact hnd.1 ha2
      have h1 := ih hnd.2 ha2
      simp only [List.count_cons, h1]
      have e1 : (a == x) = false := by
        rcases hb : a == x with _ | _
        · rfl
        · exact absurd hb hxa
      have e2 : (x == a) = false := by
        rcases hb : x == a with _ | _
        · rfl
        · exact absurd hb hax
      simp [e1, e2]

/-- Splitting distributes over an explicit newline. -/
theorem splitLines_append_nl (xs ys : List Char) :
    splitLines (xs ++ '\n' :: ys) = splitLines xs ++ splitLines ys := by
  induction xs with
  | nil => simp [splitLines]
  | cons c rest ih =>
    have e1 : ∀ l, splitLines ('\n' :: l) = [] :: splitLines l := by
      intro l
      simp [splitLines]
    by_cases hc : c = '\n'
    · subst hc
      rw [List.cons_append, e1, e1, ih]
      rfl
    · rw [List.cons_append, splitLines_cons_ne c _ hc, splitLines_cons_ne c rest hc,
        ih]
      rcases h : splitLines rest with _ | ⟨l, ls⟩
      · exact absurd h (splitLines_ne_nil rest)
      · simp [h]

/-- A newline-free text is a single line. -/
theorem splitLines_no_nl (xs : List Char) (h : ∀ c ∈ xs, c ≠ '\n') :
    splitLines xs = [xs] := by
  induction xs with
  | nil => rfl
  | cons c rest ih =>
    rw [splitLines_cons_ne c rest (h c (List.mem_cons_self _ _)),
      ih (fun d hd => h d (List.mem_cons_of_mem _ hd))]
    rfl

/-- A list is a prefix of itself extended. -/
theorem pfx_self_append (p r : List Char) : pfx p (p ++ r) = true := by
  induction p with
  | nil => rfl
  | cons a as ih => simp [pfx, ih]

/-- Heading extraction distributes over an explicit newline. -/
theorem headings_append_nl (xs ys : List Char) :
    headings (xs ++ '\n' :: ys) = headings xs ++ headings ys := by
  simp [headings, splitLines_append_nl, List.filterMap_append]

/-- The headings of one synthesis block are exactly its agent id. -/
theorem headings_block (aid : String) (ans : List Char)
    (hid : '\n' ∉ aid.data)
    (hans : ∀ l ∈ splitLines ans, pfx "### ".data l = false) :
    headings ("### ".data ++ aid.data ++ "\n".data ++ ans ++ "\n".data) =
      [aid.data] := by
  have hshape : "### ".data ++ aid.data ++ "\n".data ++ ans ++ "\n".data =
      ("### ".data ++ aid.data) ++ '\n' :: (ans ++ '\n' :: []) := by
    simp
  rw [hshape, headings_append_nl]
  have hhdr : headings ("### ".data ++ aid.data) = [aid.data] := by
    have hnn : ∀ c ∈ "### ".data ++ aid.data, c ≠ '\n' := by
      intro c hc
      rcases List.mem_append.1 hc with hc | hc
      · have hc4 : c = '#' ∨ c = '#' ∨ c = '#' ∨ c = ' ' := by simpa using hc
        rcases hc4 with rfl | rfl | rfl | rfl <;> decide
      · exact fun hcn => hid (hcn ▸ hc)
    have hdrop : ("### ".data ++ aid.data).drop 4 = aid.data := rfl
    rw [headings, splitLines_no_nl _ hnn, List.filterMap_cons]
    simp [pfx, hdrop]
  have htail : headings (ans ++ '\n' :: []) = [] := by
    rw [headings, splitLines_append_nl]
    rw [List.filterMap_append]
    have h1 : (splitLines ans).filterMap
        (fun l => if pfx "### ".data l then some (l.drop 4) else none) = [] := by
      refine List.filterMap_eq_nil.2 ?_
      intro l hl
      simp [hans l hl]
    have h2 : (splitLines ([] : List Char)).filterMap
        (fun l => if pfx "### ".data l then some (l.drop 4) else none) = [] := by
      rfl
    rw [h1, h2]
    rfl
  rw [hhdr, htail]
  rfl

/-- C8 (amended): the synthesis concatenates, in the answers map's insertion
order, one block per agent (the id as a `###` heading, then the answer).
Provided no agent id contains a newline and no answer contains a line
beginning with `"### "`, the heading lines of the synthesis are exactly the
agent ids in insertion order, and with unique ids each id occurs as a
heading exactly once. -/
theorem claim_C8 (answers : List (String × List Char))
    (hid : ∀ p ∈ answers, '\n' ∉ (Prod.fst p).data)
    (hans : ∀ p ∈ answers, ∀ l ∈ splitLines p.2, pfx "### ".data l = false) :
    headings (synthesize answers) = answers.map (fun p => p.1.data) ∧
    ((answers.map Prod.fst).Nodup → ∀ p ∈ answers,
      (headings (synthesize answers)).count p.1.data = 1) := by
  have hmain : headings (synthesize answers) = answers.map (fun p => p.1.data) := by
    induction answers with
    | nil => rfl
    | cons p rest ih =>
      have hpid : '\n' ∉ (Prod.fst p).data := hid p (List.mem_cons_self _ _)
      have hpans : ∀ l ∈ splitLines p.2, pfx "### ".data l = false :=
        hans p (List.mem_cons_self _ _)
      cases rest with
      | nil =>
        simp only [synthesize, List.map_cons, List.map_nil, pyJoin]
        rw [headings_block p.1 p.2 hpid hpans]
      | cons q rest2 =>
        have hrec : headings (synthesize (q :: rest2)) =
            (q :: rest2).map (fun p => p.1.data) := by
          refine ih (fun x hx => hid x (List.mem_cons_of_mem _ hx))
            (fun x hx => hans x (List.mem_cons_of_mem _ hx))
        have hshape : synthesize (p :: q :: rest2) =
            ("### ".data ++ p.1.data ++ "\n".data ++ p.2 ++ "\n".data) ++
              '\n' :: synthesize (q :: rest2) := by
          simp only [synthesize, List.map_cons, pyJoin]
          simp
        rw [hshape, headings_append_nl, headings_block p.1 p.2 hpid hpans, hrec]
        rfl
  refine ⟨hmain, ?_⟩
  intro hnd p hp
  rw [hmain]
  have hinj : ∀ s t : String, s.data = t.data → s = t := by
    intro s t h
    cases s
    cases t
    exact congrArg String.mk h
  have hnodup : (answers.map (fun p => p.1.data)).Nodup := by
    have : answers.map (fun p => p.1.data) =
        (answers.map Prod.fst).map String.data := by
      rw [List.map_map]
      rfl
    rw [this]
    exact hnd.map (fun {a b} hab => hinj a b hab)
  have hmem : p.1.data ∈ answers.map (fun p => p.1.data) :=
    List.mem_map_of_mem (fun p => p.1.data) hp
  exact count_eq_one_nodup _ _ hnodup hmem

/-- C8 as stated is false: an answer whose text itself contains a `### A`
line makes the synthesis contain the id `A` as a heading twice, so the
synthesis does not contain each agent id as a distinct heading exactly
once. -/
theorem claim_C8_counterexample :
    (headings (synthesize [("A", "x".data), ("B", "### A".data)])).count
      "A".data = 2 ∧
    (headings (synthesize [("A", "x".data), ("B", "### A".data)])).count
      "A".data ≠ 1 := by
  constructor
  · decide
  · decide

/-- Witness for C8 on benign concrete answers. -/
theorem claim_C8_witness :
    headings (synthesize [("A", "x".data), ("B", "y".data)]) =
      ["A".data, "B".data] ∧
    (headings (synthesize [("A", "x".data), ("B", "y".data)])).count
      "A".data = 1 := by
  have h := claim_C8 [("A", "x".data), ("B", "y".data)]
    (by decide) (by decide)
  exact ⟨by simpa using h.1, h.2 (by decide) _ (List.mem_cons_self _ _)⟩

end MaDebate
